import Mathlib

/-!
# Verification of the slothfs core against its specification

This file gives a shallow embedding, in Lean 4, of the parts of the slothfs
source (a FUSE filesystem serving lazily fetched Git trees, plus a populate
tool) that the specification's claims are about, and proves or refutes each
claim against that embedding.

Conventions of the embedding:
* Go byte slices and hashes become `List Nat` with values intended `< 256`;
  a Git hash (`plumbing.Hash`, 20 bytes) is the structure `Hash`.
* Go maps become association lists; `map[k] = v` is modelled by consing, so
  that lookup finds the most recent binding, and by an overwriting insert
  where the iteration order of the resulting map matters.
* On-disk stores written through atomic rename are modelled as association
  lists from file path to the decoded content of the file.  Serialization
  through `encoding/json` (an external library out of the spec's scope) is
  modelled at the value level: a written file holds the value that was
  serialized, and reading it back yields that value.
* Fallible Go functions returning `(T, error)` become `Option`/`Except`.
* Concurrency (claim C1) is modelled as a labelled transition system whose
  atomic steps are the lock-protected regions of the Go code.
-/

namespace Slothfs

/-! ## Hashes and hex encoding

Models `plumbing.Hash` (a 20 byte array) together with `Hash.String()`
(lowercase hex) and slothfs's `parseID` (`fs/gitilesfs.go` uses the copy in
`cache/treecache.go`, which hex-decodes and then checks the length is 20).
-/

/-- A Git object hash: the byte array `plumbing.Hash`. Equality is byte
equality. -/
structure Hash where
  bytes : List Nat
deriving DecidableEq, Repr

/-- Lowercase hex digit for a nibble, as in Go's `encoding/hex`. -/
def hexDigitChar (n : Nat) : Char :=
  if n < 10 then Char.ofNat (48 + n) else Char.ofNat (87 + n)

/-- The two hex characters of one byte. -/
def byteHexChars (b : Nat) : List Char :=
  [hexDigitChar (b / 16), hexDigitChar (b % 16)]

/-- Hex characters of a byte list. -/
def bytesToHexChars (bs : List Nat) : List Char :=
  (bs.map byteHexChars).flatten

/-- `Hash.String()`: the 40-char lowercase hex form. -/
def Hash.hexString (h : Hash) : String :=
  ⟨bytesToHexChars h.bytes⟩

/-- Value of one hex character, as accepted by Go's `hex.DecodeString`
(digits, lowercase and uppercase letters). -/
def hexDigitVal (c : Char) : Option Nat :=
  let n := c.toNat
  if 48 ≤ n ∧ n ≤ 57 then some (n - 48)
  else if 97 ≤ n ∧ n ≤ 102 then some (n - 87)
  else if 65 ≤ n ∧ n ≤ 70 then some (n - 55)
  else none

/-- Go's `hex.DecodeString` on a char list: fails on odd length or any
non-hex character. -/
def decodeHexBytes : List Char → Option (List Nat)
  | [] => some []
  | [_] => none
  | c1 :: c2 :: rest => do
      let hi ← hexDigitVal c1
      let lo ← hexDigitVal c2
      let bs ← decodeHexBytes rest
      pure ((16 * hi + lo) :: bs)

/-- `parseID` (`cache/treecache.go`): hex-decode, then require exactly 20
bytes. -/
def parseID (s : String) : Option Hash :=
  match decodeHexBytes s.data with
  | none => none
  | some b => if b.length = 20 then some ⟨b⟩ else none

/-! ## C7: the tree cache (`cache/treecache.go`)

`TreeCache` persists `gitiles.Tree` values in files under a two-level hex
path.  The store is modelled as an association list from file path to the
Tree the file serializes; `add`'s tempfile-then-rename write is a consed
binding (lookup sees the newest write, as readers of the renamed file do).
-/

/-- `gitiles.TreeEntry` (metadata of one file of a recursively expanded
tree). -/
structure TreeEntry where
  Name : String
  ID : String
  Mode : Nat
  /-- The Go field `Type` (`"blob"`, `"commit"` or `"tree"`); `Type` is a
  Lean keyword, so the field is named `typ` here. -/
  typ : String
  Size : Option Nat
  Target : Option String
deriving DecidableEq, Repr

/-- `gitiles.Tree`: an ID plus entries. -/
structure Tree where
  ID : String
  Entries : List TreeEntry
deriving DecidableEq, Repr

/-- The on-disk state of a `TreeCache`: file path to stored Tree. -/
abbrev TreeStore := List (String × Tree)

/-- Assoc-list lookup by string key (first, i.e. most recent, binding). -/
def lookupStr {α : Type} : List (String × α) → String → Option α
  | [], _ => none
  | (k, v) :: rest, key => if k = key then some v else lookupStr rest key

/-- `TreeCache.path`: `dir/xxx/yyy…` from the 40-char hex form. -/
def treeCachePath (dir : String) (id : Hash) : String :=
  let str := id.hexString
  dir ++ "/" ++ str.take 3 ++ "/" ++ str.drop 3

/-- The unexported `TreeCache.add`: serialize and rename into place. -/
def treeCacheAddOne (dir : String) (s : TreeStore) (id : Hash) (t : Tree) : TreeStore :=
  (treeCachePath dir id, t) :: s

/-- `TreeCache.Add`: store under `id`; when `id.String() != tree.ID`, parse
the tree's own ID and also store under it (failing if it does not parse). -/
def treeCacheAdd (dir : String) (s : TreeStore) (id : Hash) (t : Tree) :
    Option TreeStore :=
  let s1 := treeCacheAddOne dir s id t
  if id.hexString ≠ t.ID then
    match parseID t.ID with
    | none => none
    | some treeID => some (treeCacheAddOne dir s1 treeID t)
  else
    some s1

/-- `TreeCache.Get`: read the file at `path(id)` and decode it. -/
def treeCacheGet (dir : String) (s : TreeStore) (id : Hash) : Option Tree :=
  lookupStr s (treeCachePath dir id)

end Slothfs

namespace Slothfs

/-- C7, part 1: after a successful `Add(h, t)`, `Get(h)` returns `t`. -/
theorem treeCacheAdd_get_self (dir : String) (s : TreeStore) (h : Hash) (t : Tree)
    (s' : TreeStore) (hadd : treeCacheAdd dir s h t = some s') :
    treeCacheGet dir s' h = some t := by
  unfold treeCacheAdd at hadd
  by_cases hne : h.hexString ≠ t.ID
  · simp only [if_pos hne] at hadd
    cases hp : parseID t.ID with
    | none => rw [hp] at hadd; cases hadd
    | some treeID =>
        rw [hp] at hadd
        cases hadd
        unfold treeCacheGet treeCacheAddOne lookupStr
        by_cases heq : treeCachePath dir treeID = treeCachePath dir h
        · simp [heq]
        · simp [heq, lookupStr]
  · simp only [if_neg hne] at hadd
    cases hadd
    unfold treeCacheGet treeCacheAddOne lookupStr
    simp

/-- C7, part 2: if the tree's embedded ID differs from `h`'s hex form, the
tree is additionally retrievable under its parsed own ID. -/
theorem treeCacheAdd_get_treeID (dir : String) (s : TreeStore) (h : Hash) (t : Tree)
    (s' : TreeStore) (hadd : treeCacheAdd dir s h t = some s')
    (hne : h.hexString ≠ t.ID) (h' : Hash) (hp : parseID t.ID = some h') :
    treeCacheGet dir s' h' = some t := by
  unfold treeCacheAdd at hadd
  simp only [if_pos hne, hp] at hadd
  cases hadd
  unfold treeCacheGet treeCacheAddOne lookupStr
  simp

/-- C7: combined statement. After `Add(h, t)` succeeds on the tree cache,
`Get(h)` returns `t`, and if `t`'s embedded ID differs from `h` then
`Get(parseID t.ID)` also returns `t`. -/
theorem treeCache_add_get (dir : String) (s : TreeStore) (h : Hash) (t : Tree)
    (s' : TreeStore) (hadd : treeCacheAdd dir s h t = some s') :
    treeCacheGet dir s' h = some t ∧
      (h.hexString ≠ t.ID →
        ∀ h', parseID t.ID = some h' → treeCacheGet dir s' h' = some t) := by
  refine ⟨treeCacheAdd_get_self dir s h t s' hadd, fun hne h' hp => ?_⟩
  exact treeCacheAdd_get_treeID dir s h t s' hadd hne h' hp

/-- A hash of 20 zero bytes, used as concrete input. -/
def hash0 : Hash := ⟨List.replicate 20 0⟩

/-- A hash of 20 bytes 0x11, used as concrete input. -/
def hash1 : Hash := ⟨List.replicate 20 17⟩

/-- A tree whose embedded ID is the hex form of `hash1`. -/
def tree1 : Tree := { ID := hash1.hexString, Entries := [] }

/-- Witness for C7: a concrete successful `Add(hash0, tree1)` after which
both lookups return `tree1`. -/
theorem treeCache_add_get_witness :
    treeCacheGet "c" (treeCacheAddOne "c" (treeCacheAddOne "c" [] hash0 tree1) hash1 tree1)
        hash0 = some tree1 ∧
      treeCacheGet "c" (treeCacheAddOne "c" (treeCacheAddOne "c" [] hash0 tree1) hash1 tree1)
        hash1 = some tree1 := by
  have hadd : treeCacheAdd "c" [] hash0 tree1 =
      some (treeCacheAddOne "c" (treeCacheAddOne "c" [] hash0 tree1) hash1 tree1) := by
    decide
  have h := treeCache_add_get "c" [] hash0 tree1 _ hadd
  exact ⟨h.1, h.2 (by decide) hash1 (by decide)⟩

/-! ## C9: `LazyRepo` (`cache/gitcache.go`)

`LazyRepo` guards a lazily cloned bare repository with a mutex.  Its fields
`url`, `cloning`, `repo` form the state; `Clone` and the completion of
`runClone` are the operations (each runs entirely under `repoMu`, so each is
one atomic step here).  The repository handle itself is opaque. -/

/-- An opened `git.Repository` handle, identified only by identity. -/
structure Repo where
  id : Nat
deriving DecidableEq, Repr

/-- The mutable state of a `LazyRepo` (fields guarded by `repoMu`). -/
structure LazyRepoState where
  url : String
  cloning : Bool
  repo : Option Repo
deriving DecidableEq, Repr

/-- `newLazyRepo`: records the URL and pre-opens a local repo if present
(`cache.OpenLocal(url)`, passed in as `openLocal`). -/
def newLazyRepoState (url : String) (openLocal : Option Repo) : LazyRepoState :=
  { url := url, cloning := false, repo := openLocal }

/-- `LazyRepo.Clone`: under the lock, return immediately if the URL is empty
or a repo is loaded or a clone is already running; otherwise set `cloning`
and spawn `runClone`.  The Bool reports whether a background clone was
spawned (`go r.runClone()`). -/
def lazyRepoClone (s : LazyRepoState) : LazyRepoState × Bool :=
  if s.url = "" ∨ s.repo ≠ none then (s, false)
  else if s.cloning then (s, false)
  else ({ s with cloning := true }, true)

/-- Completion of `LazyRepo.runClone`: `cache.Open` returned `res` (`none`
models a failed clone); under the lock the URL is cleared, `cloning` reset
and the result stored. -/
def lazyRepoRunCloneFinish (_s : LazyRepoState) (res : Option Repo) : LazyRepoState :=
  { url := "", cloning := false, repo := res }

/-- C9 counterexample: drive a fresh `LazyRepo` through one failed clone.
The resulting state is Failed (no repo loaded, no clone running), yet
`Clone()` neither transitions it to Cloning nor spawns a background task,
contradicting the claim that from any state that is neither Ready nor
Cloning — including Failed — `clone()` starts a new clone. -/
theorem lazyRepoClone_failed_noop :
    (lazyRepoRunCloneFinish (lazyRepoClone (newLazyRepoState "u" none)).1 none).repo = none ∧
      (lazyRepoRunCloneFinish (lazyRepoClone (newLazyRepoState "u" none)).1 none).cloning
        = false ∧
      lazyRepoClone (lazyRepoRunCloneFinish (lazyRepoClone (newLazyRepoState "u" none)).1 none)
        = (lazyRepoRunCloneFinish (lazyRepoClone (newLazyRepoState "u" none)).1 none, false) := by
  decide

/-- C9 amended: `clone()` is idempotent (a second call after any call is a
no-op); it transitions to Cloning and spawns a background task exactly when
the URL is still nonempty, no repository is loaded and no clone is running;
and because the completion of `runClone` clears the URL, after a completed
attempt — success or failure — `clone()` never starts another clone. -/
theorem lazyRepoClone_amended (s : LazyRepoState) (res : Option Repo) :
    lazyRepoClone (lazyRepoClone s).1 = ((lazyRepoClone s).1, false) ∧
      ((lazyRepoClone s).2 = true ↔ s.url ≠ "" ∧ s.repo = none ∧ s.cloning = false) ∧
      ((lazyRepoClone s).2 = true → (lazyRepoClone s).1 = { s with cloning := true }) ∧
      lazyRepoClone (lazyRepoRunCloneFinish s res)
        = (lazyRepoRunCloneFinish s res, false) := by
  obtain ⟨u, c, r⟩ := s
  simp only [lazyRepoClone, lazyRepoRunCloneFinish]
  by_cases hu : u = "" <;> cases c <;> cases r <;> simp [hu]

/-! ## Go path and host-port helpers

Shallow embeddings of the Go standard-library string functions the slothfs
code uses: `path.Clean` / `filepath.Clean` (identical on the slash-separated
paths slothfs works with), `path.Base`, `path.Dir`, `path.Split`,
`filepath.Join`, and `net.SplitHostPort` (without the IPv6 bracket forms,
which slothfs clone URLs do not use; a bracketed input is mapped to the
error case). -/

/-- Split a char list on `'/'` (keeping empty components, like
`strings.Split`). -/
def splitOnSlashAux : List Char → List Char → List (List Char)
  | [], acc => [acc.reverse]
  | c :: cs, acc =>
      if c = '/' then acc.reverse :: splitOnSlashAux cs []
      else splitOnSlashAux cs (c :: acc)

/-- Split a char list on `'/'`. -/
def splitOnSlash (cs : List Char) : List (List Char) :=
  splitOnSlashAux cs []

/-- The element-processing loop of Go's `path.Clean`, on components: empty
and `.` components are dropped; `..` pops a real component, is dropped at
the root, and accumulates otherwise.  The stack is kept top-first. -/
def cleanStack (rooted : Bool) : List (List Char) → List (List Char) → List (List Char)
  | stack, [] => stack
  | stack, c :: cs =>
      if c = [] ∨ c = ['.'] then cleanStack rooted stack cs
      else if c = ['.', '.'] then
        match stack with
        | top :: rest =>
            if top = ['.', '.'] then cleanStack rooted (c :: top :: rest) cs
            else cleanStack rooted rest cs
        | [] => if rooted then cleanStack rooted [] cs else cleanStack rooted [c] cs
      else cleanStack rooted (c :: stack) cs

/-- Join components with `'/'`. -/
def intercalateSlash : List (List Char) → List Char
  | [] => []
  | [c] => c
  | c :: rest => c ++ '/' :: intercalateSlash rest

/-- Go's `path.Clean` (= `filepath.Clean` for slash paths). -/
def goClean (s : String) : String :=
  if s = "" then "."
  else
    let cs := s.data
    let rooted := cs.head? = some '/'
    let comps := (cleanStack rooted [] (splitOnSlash cs)).reverse
    if comps = [] then (if rooted then "/" else ".")
    else ⟨(if rooted then ['/'] else []) ++ intercalateSlash comps⟩

/-- Go's `path.Base`: last element after stripping trailing slashes; `"."`
for the empty path, `"/"` for an all-slash path. -/
def goBase (s : String) : String :=
  if s = "" then "."
  else
    let r := s.data.reverse.dropWhile (fun c => c = '/')
    if r = [] then "/"
    else ⟨(r.takeWhile (fun c => c ≠ '/')).reverse⟩

/-- Go's `path.Split`: split after the final slash. -/
def goSplitPath (s : String) : String × String :=
  let r := s.data.reverse
  let afterRev := r.takeWhile (fun c => c ≠ '/')
  (⟨(r.drop afterRev.length).reverse⟩, ⟨afterRev.reverse⟩)

/-- Go's `path.Dir` / `filepath.Dir`: `Clean` of everything up to the final
element. -/
def goDir (s : String) : String :=
  goClean (goSplitPath s).1

/-- Go's `filepath.Join`: skip leading empty elements, join the rest with
slashes, `Clean` the result; all-empty input gives `""`. -/
def goJoinList (elems : List String) : String :=
  match elems.dropWhile (fun e => e = "") with
  | [] => ""
  | es => goClean ⟨intercalateSlash (es.map String.data)⟩

/-- Two-argument `filepath.Join`. -/
def goJoin (a b : String) : String :=
  goJoinList [a, b]

/-- Go's `net.SplitHostPort` restricted to bracket-free inputs: split at the
last colon; error (`none`) when there is no colon, a further colon in the
host part, or any bracket. -/
def splitHostPort (s : String) : Option (String × String) :=
  if s.data.contains '[' ∨ s.data.contains ']' then none
  else
    let r := s.data.reverse
    let portRev := r.takeWhile (fun c => c ≠ ':')
    if portRev.length = r.length then none
    else
      let host := (r.drop (portRev.length + 1)).reverse
      if host.contains ':' then none
      else some (⟨host⟩, ⟨portRev.reverse⟩)

/-! ## C8: the bare-repo cache key (`cache/gitcache.go:117-132`)

`gitCache.gitPath` maps a clone URL to the on-disk location of its bare
repository.  `url.Parse` is external; the embedding takes the parsed URL's
`Host` and `Path` fields as input. -/

/-- The `Host` and `Path` of a parsed clone URL. -/
structure ParsedURL where
  host : String
  path : String
deriving DecidableEq, Repr

/-- Remove a trailing `".git"` suffix if present (the operation the claim
describes). -/
def stripDotGitSuffix (p : String) : String :=
  let r := p.data.reverse
  if r.take 4 = ['t', 'i', 'g', '.'] then ⟨(r.drop 4).reverse⟩ else p

/-- `gitCache.gitPath`: strip a port from the host via `SplitHostPort`,
`Clean` the path, drop the final path component when it is exactly `".git"`
(`path.Base(p) == ".git"`), and join `dir/host/p + ".git"`. -/
def gitPath (cacheDir : String) (u : ParsedURL) : String :=
  let host :=
    match splitHostPort u.host with
    | some (h, _) => h
    | none => u.host
  let p := goClean u.path
  let p1 := if goBase p = ".git" then goDir p else p
  goJoinList [cacheDir, host, p1 ++ ".git"]

/-- The cache key as the claim states it: strip the port from the host,
strip a trailing `".git"` suffix from the path, and map to
`root/<host>/<pathWithoutDotGit>.git`. -/
def gitPathClaimed (cacheDir : String) (u : ParsedURL) : String :=
  let host :=
    match splitHostPort u.host with
    | some (h, _) => h
    | none => u.host
  let p := stripDotGitSuffix u.path
  goJoinList [cacheDir, host, p ++ ".git"]

/-- C8 counterexample: for the URL path `"/repo.git"` (host `"h"`, cache
root `"/r"`), the code keeps the `".git"` suffix — `path.Base` is
`"repo.git"`, not `".git"` — and produces `/r/h/repo.git.git`, while the
claimed mapping produces `/r/h/repo.git`. -/
theorem gitPath_ne_claimed :
    gitPath "/r" ⟨"h", "/repo.git"⟩ = "/r/h/repo.git.git" ∧
      gitPathClaimed "/r" ⟨"h", "/repo.git"⟩ = "/r/h/repo.git" := by
  constructor <;> decide

/-- `takeWhile` consumes a block on which the predicate holds up to the
first failing element. -/
theorem takeWhileBlock (p : Char → Bool) (l : List Char) (hl : ∀ c ∈ l, p c)
    (c : Char) (hc : ¬ p c) (rest : List Char) :
    (l ++ c :: rest).takeWhile p = l := by
  induction l with
  | nil => simp [List.takeWhile, hc]
  | cons a as ih =>
      have ha : p a := hl a (List.mem_cons_self a as)
      simp only [List.cons_append, List.takeWhile_cons, ha, if_true]
      rw [ih (fun x hx => hl x (List.mem_cons_of_mem a hx))]

/-- `takeWhile` keeps a list on which the predicate always holds. -/
theorem takeWhileAll (p : Char → Bool) (l : List Char) (hl : ∀ c ∈ l, p c) :
    l.takeWhile p = l := by
  induction l with
  | nil => rfl
  | cons a as ih =>
      have ha : p a := hl a (List.mem_cons_self a as)
      simp only [List.takeWhile_cons, ha, if_true]
      rw [ih (fun x hx => hl x (List.mem_cons_of_mem a hx))]

/-- On a bracket-free `host:port` input with a single colon,
`SplitHostPort` strips the port. -/
theorem splitHostPort_hostport (h p : String)
    (hh : ∀ c ∈ h.data, c ≠ ':' ∧ c ≠ '[' ∧ c ≠ ']')
    (hp : ∀ c ∈ p.data, c ≠ ':' ∧ c ≠ '[' ∧ c ≠ ']') :
    splitHostPort (h ++ ":" ++ p) = some (h, p) := by
  have hdata : (h ++ ":" ++ p).data = h.data ++ ':' :: p.data := by
    rw [String.data_append, String.data_append]
    simp
  have hnb : ¬ ((h ++ ":" ++ p).data.contains '[' ∨ (h ++ ":" ++ p).data.contains ']') := by
    rw [hdata]
    rintro (hx | hx) <;> rw [List.elem_iff] at hx <;>
      rcases List.mem_append.mp hx with hy | hy
    · exact (hh _ hy).2.1 rfl
    · rcases List.mem_cons.mp hy with hz | hz
      · cases hz
      · exact (hp _ hz).2.1 rfl
    · exact (hh _ hy).2.2 rfl
    · rcases List.mem_cons.mp hy with hz | hz
      · cases hz
      · exact (hp _ hz).2.2 rfl
  have hrev : (h ++ ":" ++ p).data.reverse
      = p.data.reverse ++ ':' :: h.data.reverse := by
    rw [hdata]; simp
  have htake : ((h ++ ":" ++ p).data.reverse).takeWhile (fun c => c ≠ ':')
      = p.data.reverse := by
    rw [hrev]
    refine takeWhileBlock _ _ (fun c hc => ?_) ':' (by simp) _
    simp only [ne_eq, decide_eq_true_eq]
    exact (hp c (List.mem_reverse.mp hc)).1
  have hlen : p.data.reverse.length ≠ (h ++ ":" ++ p).data.reverse.length := by
    rw [hrev]
    simp only [List.length_append, List.length_cons, List.length_reverse]
    omega
  have hdrop : ((h ++ ":" ++ p).data.reverse).drop (p.data.reverse.length + 1)
      = h.data.reverse := by
    rw [hrev]
    have heq : p.data.reverse ++ ':' :: h.data.reverse
        = (p.data.reverse ++ [':']) ++ h.data.reverse := by simp
    rw [heq]
    have hl : (p.data.reverse ++ [':']).length = p.data.reverse.length + 1 := by simp
    rw [← hl, List.drop_left]
  have hhost : (h.data.reverse.reverse : List Char).contains ':' = false := by
    rw [List.reverse_reverse]
    by_contra hc
    rw [Bool.not_eq_false, List.elem_iff] at hc
    exact (hh _ hc).1 rfl
  unfold splitHostPort
  rw [if_neg hnb]
  simp only [htake, hdrop, hlen, if_false, if_neg hlen]
  simp only [String.contains] at hhost ⊢
  rw [List.reverse_reverse] at hhost ⊢
  simp only [hhost, Bool.false_eq_true, if_false]
  simp

/-- On a colon-free, bracket-free host, `SplitHostPort` fails. -/
theorem splitHostPort_bare (h : String)
    (hh : ∀ c ∈ h.data, c ≠ ':') :
    splitHostPort h = none := by
  have htake : h.data.reverse.takeWhile (fun c => !decide (c = ':')) = h.data.reverse := by
    refine takeWhileAll _ _ (fun c hc => ?_)
    simp only [Bool.not_eq_true', decide_eq_false_iff_not]
    exact hh c (List.mem_reverse.mp hc)
  unfold splitHostPort
  by_cases hb : (h.data.contains '[' ∨ h.data.contains ']')
  · rw [if_pos hb]
  · rw [if_neg hb]
    simp [htake]

/-- C8 amended: the port (everything after the single colon of the host) is
stripped, so URLs that differ only in the port — or drop the port entirely —
produce the same cache key; and the path is `Clean`ed, with its final
component dropped only when that component is exactly `".git"`, before
`".git"` is appended. -/
theorem gitPath_amended (cacheDir h p1 p2 pa : String)
    (hh : ∀ c ∈ h.data, c ≠ ':' ∧ c ≠ '[' ∧ c ≠ ']')
    (hp1 : ∀ c ∈ p1.data, c ≠ ':' ∧ c ≠ '[' ∧ c ≠ ']')
    (hp2 : ∀ c ∈ p2.data, c ≠ ':' ∧ c ≠ '[' ∧ c ≠ ']') :
    gitPath cacheDir ⟨h ++ ":" ++ p1, pa⟩ = gitPath cacheDir ⟨h, pa⟩ ∧
      gitPath cacheDir ⟨h ++ ":" ++ p2, pa⟩ = gitPath cacheDir ⟨h, pa⟩ ∧
      (goBase (goClean pa) = ".git" →
        gitPath cacheDir ⟨h, pa⟩
          = goJoinList [cacheDir, h, goDir (goClean pa) ++ ".git"]) ∧
      (goBase (goClean pa) ≠ ".git" →
        gitPath cacheDir ⟨h, pa⟩
          = goJoinList [cacheDir, h, goClean pa ++ ".git"]) := by
  have hbare : splitHostPort h = none := splitHostPort_bare h (fun c hc => (hh c hc).1)
  have hsp1 : splitHostPort (h ++ ":" ++ p1) = some (h, p1) :=
    splitHostPort_hostport h p1 hh hp1
  have hsp2 : splitHostPort (h ++ ":" ++ p2) = some (h, p2) :=
    splitHostPort_hostport h p2 hh hp2
  refine ⟨?_, ?_, ?_, ?_⟩
  · unfold gitPath; rw [hsp1, hbare]
  · unfold gitPath; rw [hsp2, hbare]
  · intro hgit
    simp only [gitPath, hbare]
    rw [if_pos hgit]
  · intro hgit
    simp only [gitPath, hbare]
    rw [if_neg hgit]

/-- Witness for C8 amended, at host `"h"`, ports `"80"`/`"8080"`, paths
`"/repo.git"` and `"/repo/.git"`. -/
theorem gitPath_amended_witness :
    gitPath "/r" ⟨"h:80", "/repo.git"⟩ = gitPath "/r" ⟨"h", "/repo.git"⟩ ∧
      gitPath "/r" ⟨"h:8080", "/repo.git"⟩ = gitPath "/r" ⟨"h", "/repo.git"⟩ ∧
      (goBase (goClean "/repo.git") = ".git" →
        gitPath "/r" ⟨"h", "/repo.git"⟩
          = goJoinList ["/r", "h", goDir (goClean "/repo.git") ++ ".git"]) ∧
      (goBase (goClean "/repo.git") ≠ ".git" →
        gitPath "/r" ⟨"h", "/repo.git"⟩
          = goJoinList ["/r", "h", goClean "/repo.git" ++ ".git"]) :=
  gitPath_amended "/r" "h" "80" "8080" "/repo.git" (by decide) (by decide) (by decide)

/-! ## C3: per-project clone hint (`fs/manifestfs.go:107-141`)

`manifestFSRoot.onMount` computes, for each project, whether its
`RepositoryFS` should trigger a bulk clone.  A project path is put in
`clonablePaths` iff its `CloneDepth` is empty; the mount loop then reads
`clone, ok := clonablePaths[p]` and consults the `RepoCloneOption` rules
only when `ok` is false.  The regexp engine is external: a rule is modelled
by the Boolean predicate `RE.FindString(path) != ""` together with its
`Clone` flag. -/

/-- One `CloneOption` rule.  The regexp engine is external, so the compiled
`RE` is modelled by the Boolean test the code applies to it: for repo rules
`RE.FindString(path) != ""` (`manifestfs.go:131`), for file rules
`RE.MatchString(path)` (`gitilesfs.go:414`). -/
structure CloneRule where
  test : String → Bool
  clone : Bool

/-- First matching rule wins (the `for … break` loop). -/
def firstRepoRuleClone (rules : List CloneRule) (path : String) : Option Bool :=
  match rules with
  | [] => none
  | r :: rest => if r.test path then some r.clone else firstRepoRuleClone rest path

/-- The per-project clone hint computed by `manifestFSRoot.onMount`:
`clone, ok := clonablePaths[p]` (true iff `CloneDepth` is empty), and the
repo rules are consulted only when the path is not clonable, with the Go
zero value `false` as default. -/
def projectCloneHint (rules : List CloneRule) (cloneDepth path : String) : Bool :=
  if cloneDepth = "" then true
  else
    match firstRepoRuleClone rules path with
    | some c => c
    | none => false

/-- The clone URL handed to the project's `RepositoryFS`
(`cloneURL := revmap[p].CloneURL; if !clone { cloneURL = "" }`). -/
def projectCloneURL (rules : List CloneRule) (cloneDepth path cloneURL : String) : String :=
  if projectCloneHint rules cloneDepth path then cloneURL else ""

/-- The hint as the claim states it: non-empty `clone-depth` means no clone
hint; otherwise the repo rules decide, first match wins, defaulting to
clone. -/
def projectCloneHintClaimed (rules : List CloneRule) (cloneDepth path : String) : Bool :=
  if cloneDepth ≠ "" then false
  else
    match firstRepoRuleClone rules path with
    | some c => c
    | none => true

/-- A rule that matches every path and requests a clone. -/
def ruleMatchClone : CloneRule := { test := fun _ => true, clone := true }

/-- A rule that matches every path and forbids a clone. -/
def ruleMatchNoClone : CloneRule := { test := fun _ => true, clone := false }

/-- C3 counterexample: with `clone-depth = "1"` and a matching rule with
`Clone: true`, the code sets the clone hint (the claim says a non-empty
clone-depth yields no hint); with empty `clone-depth` and a matching rule
with `Clone: false`, the code still sets the hint (the claim says the rule
decides).  So the claimed computation differs from the code on both sides
of the clone-depth test. -/
theorem projectCloneHint_ne_claimed :
    projectCloneHint [ruleMatchClone] "1" "p" = true ∧
      projectCloneHintClaimed [ruleMatchClone] "1" "p" = false ∧
      projectCloneHint [ruleMatchNoClone] "" "p" = true ∧
      projectCloneHintClaimed [ruleMatchNoClone] "" "p" = false := by
  refine ⟨rfl, rfl, rfl, rfl⟩

/-- The hint as amended: an empty `clone-depth` always yields the clone
hint (the rules are not consulted); a non-empty `clone-depth` lets the repo
rules on the mount path decide, first match wins, defaulting to no clone. -/
def projectCloneHintAmended (rules : List CloneRule) (cloneDepth path : String) : Bool :=
  if cloneDepth = "" then true
  else (firstRepoRuleClone rules path).getD false

/-- C3 amended: the code's per-project hint agrees with the amended
description for every rule list, clone-depth and path, and the project's
`RepositoryFS` receives the clone URL exactly when the hint is set. -/
theorem projectCloneHint_amended (rules : List CloneRule)
    (cloneDepth path cloneURL : String) :
    projectCloneHint rules cloneDepth path = projectCloneHintAmended rules cloneDepth path ∧
      projectCloneURL rules cloneDepth path cloneURL
        = (if projectCloneHintAmended rules cloneDepth path then cloneURL else "") := by
  constructor
  · unfold projectCloneHint projectCloneHintAmended
    by_cases hd : cloneDepth = "" <;> simp [hd] <;>
      cases firstRepoRuleClone rules path <;> rfl
  · unfold projectCloneURL
    rw [show projectCloneHint rules cloneDepth path
          = projectCloneHintAmended rules cloneDepth path from ?_]
    · unfold projectCloneHint projectCloneHintAmended
      by_cases hd : cloneDepth = "" <;> simp [hd] <;>
        cases firstRepoRuleClone rules path <;> rfl

/-! ## C10: FileNode sharing through the `nodeCache`

`gitilesRoot.onMount` (`fs/gitilesfs.go:388-470`) walks the tree entries
and, for each blob, looks up the process-wide `nodeCache`
(`src/unnamed/part_020`) under the key `(hash, executable-bit)`.  On a miss
it allocates a `gitilesNode` from that entry's metadata and adds it; on a
hit it attaches the cached node unchanged.  The embedding folds over the
entries, producing per-entry node assignments (the inode that
`parent.NewChild`/`parent.AddChild` attaches; the directory structure
itself is not needed for the claim).  Go pointer identity of allocations is
modelled by the `created` tag: `onMount` gives each fresh allocation a
distinct tag, so two assignments are the same Go object iff they are equal
as `GitilesNode` values. -/

/-- A `gitilesNode`: the FUSE inode of one blob. -/
structure GitilesNode where
  id : Hash
  mode : Nat
  size : Int
  linkTarget : Option String
  clone : Bool
  /-- `mtime`, initialized to one second past the epoch. -/
  mtimeUnixSec : Int
  /-- Allocation tag standing for Go pointer identity. -/
  created : Nat
deriving DecidableEq, Repr

/-- Generic assoc-list lookup (Go map read). -/
def lookupBy {κ α : Type} [DecidableEq κ] : List (κ × α) → κ → Option α
  | [], _ => none
  | (k, v) :: rest, key => if k = key then some v else lookupBy rest key

/-- The `nodeCache` contents: `(Hash, executable-bit)` to node. -/
abbrev NodeCache := List ((Hash × Bool) × GitilesNode)

/-- `xbit := e.Mode&0111 != 0`. -/
def xbitOf (e : TreeEntry) : Bool :=
  e.Mode &&& 0o111 != 0

/-- First matching file rule (`e.RE.MatchString(p)`), first match wins. -/
def firstFileRuleClone (rules : List CloneRule) (path : String) : Option Bool :=
  match rules with
  | [] => none
  | r :: rest => if r.test path then some r.clone else firstFileRuleClone rest path

/-- Per-file clone flag of `gitilesRoot.onMount`: false without a clone
URL; otherwise the first matching file rule decides, defaulting to true. -/
def fileCloneHint (cloneURL : String) (rules : List CloneRule) (p : String) : Bool :=
  if cloneURL = "" then false
  else (firstFileRuleClone rules p).getD true

/-- The options of one `gitilesRoot` that feed the per-file clone flag. -/
structure GitilesOpts where
  cloneURL : String
  cloneOption : List CloneRule

/-- The loop state of `gitilesRoot.onMount`: the shared node cache, the
`shaMap` (hash to path, filled only when a node is created), and the next
allocation tag. -/
structure OnMountState where
  cache : NodeCache
  shaMap : List (Hash × String)
  next : Nat
deriving DecidableEq, Repr

/-- The `gitilesNode` allocated for entry `e`: mode and size from the
entry, with a symlink target overriding the size by its length. -/
def mkGitilesNode (e : TreeEntry) (id : Hash) (clone : Bool) (tag : Nat) : GitilesNode :=
  { id := id
    mode := e.Mode
    size :=
      match e.Target with
      | some t => (t.length : Int)
      | none =>
          match e.Size with
          | some sz => (sz : Int)
          | none => 0
    linkTarget := e.Target
    clone := clone
    mtimeUnixSec := 1
    created := tag }

/-- One iteration of the entry loop of `gitilesRoot.onMount`: submodule
(`commit`) entries only create directories; other non-blob types panic;
blob entries parse their ID, compute the clone flag and either reuse the
cached node or allocate, record and cache a fresh one. -/
def processEntry (opts : GitilesOpts) (st : OnMountState) (e : TreeEntry) :
    Except String (OnMountState × Option GitilesNode) :=
  if e.typ = "commit" then .ok (st, none)
  else if e.typ ≠ "blob" then .error "unexpected object type"
  else
    match parseID e.ID with
    | none => .error "parseID"
    | some id =>
        let clone := fileCloneHint opts.cloneURL opts.cloneOption e.Name
        let xbit := xbitOf e
        match lookupBy st.cache (id, xbit) with
        | some n => .ok (st, some n)
        | none =>
            let n := mkGitilesNode e id clone st.next
            .ok
              ({ cache := ((id, xbit), n) :: st.cache
                 shaMap := (id, e.Name) :: st.shaMap
                 next := st.next + 1 },
                some n)

/-- The entry loop of `gitilesRoot.onMount`, returning the final state and
the node attached for each entry (`none` for submodule entries). -/
def onMountEntries (opts : GitilesOpts) (st : OnMountState) :
    List TreeEntry → Except String (OnMountState × List (Option GitilesNode))
  | [] => .ok (st, [])
  | e :: es =>
      match processEntry opts st e with
      | .error err => .error err
      | .ok (st1, a) =>
          match onMountEntries opts st1 es with
          | .error err => .error err
          | .ok (st2, rest) => .ok (st2, a :: rest)

/-- The node-cache key of a blob entry, when its ID parses. -/
def entryKeyOf (e : TreeEntry) : Option (Hash × Bool) :=
  if e.typ = "blob" then (parseID e.ID).map (fun id => (id, xbitOf e)) else none

/-- A cached binding survives one loop iteration (`nodeCache.add` only
inserts keys that missed). -/
theorem processEntry_cache_persist (opts : GitilesOpts) (st : OnMountState)
    (e : TreeEntry) (st1 : OnMountState) (a : Option GitilesNode)
    (hok : processEntry opts st e = .ok (st1, a))
    (κ : Hash × Bool) (n : GitilesNode) (hl : lookupBy st.cache κ = some n) :
    lookupBy st1.cache κ = some n := by
  unfold processEntry at hok
  by_cases hc : e.typ = "commit"
  · simp only [if_pos hc] at hok
    cases hok; exact hl
  · simp only [if_neg hc] at hok
    by_cases hb : e.typ ≠ "blob"
    · simp only [if_pos hb] at hok; cases hok
    · simp only [if_neg hb] at hok
      cases hp : parseID e.ID with
      | none => simp only [hp] at hok; cases hok
      | some id =>
          simp only [hp] at hok
          cases hcache : lookupBy st.cache (id, xbitOf e) with
          | some m => simp only [hcache] at hok; cases hok; exact hl
          | none =>
              simp only [hcache] at hok
              cases hok
              show lookupBy (((id, xbitOf e), _) :: st.cache) κ = some n
              unfold lookupBy
              by_cases hκ : (id, xbitOf e) = κ
              · rw [hκ] at hcache; rw [hcache] at hl; cases hl
              · rw [if_neg hκ]; exact hl

/-- A key missed by the cache stays missed through an iteration whose entry
has a different key. -/
theorem processEntry_cache_absent (opts : GitilesOpts) (st : OnMountState)
    (e : TreeEntry) (st1 : OnMountState) (a : Option GitilesNode)
    (hok : processEntry opts st e = .ok (st1, a))
    (κ : Hash × Bool) (hl : lookupBy st.cache κ = none)
    (hκ : entryKeyOf e ≠ some κ) :
    lookupBy st1.cache κ = none := by
  unfold processEntry at hok
  unfold entryKeyOf at hκ
  by_cases hc : e.typ = "commit"
  · simp only [if_pos hc] at hok; cases hok; exact hl
  · simp only [if_neg hc] at hok
    by_cases hb : e.typ ≠ "blob"
    · simp only [if_pos hb] at hok; cases hok
    · simp only [if_neg hb] at hok
      rw [not_ne_iff] at hb
      rw [if_pos hb] at hκ
      cases hp : parseID e.ID with
      | none => simp only [hp] at hok; cases hok
      | some id =>
          simp only [hp] at hok
          rw [hp] at hκ
          simp only [Option.map_some', Option.some_inj] at hκ
          cases hcache : lookupBy st.cache (id, xbitOf e) with
          | some m => simp only [hcache] at hok; cases hok; exact hl
          | none =>
              simp only [hcache] at hok
              cases hok
              show lookupBy (((id, xbitOf e), _) :: st.cache) κ = none
              unfold lookupBy
              rw [if_neg (fun hh => hκ (by rw [hh]))]
              exact hl

/-- A blob entry that misses the cache is assigned a freshly allocated node
built from that entry's metadata, and the cache gains it. -/
theorem processEntry_create (opts : GitilesOpts) (st : OnMountState)
    (e : TreeEntry) (st1 : OnMountState) (a : Option GitilesNode)
    (hok : processEntry opts st e = .ok (st1, a))
    (κ : Hash × Bool) (hκ : entryKeyOf e = some κ)
    (hl : lookupBy st.cache κ = none) :
    a = some (mkGitilesNode e κ.1 (fileCloneHint opts.cloneURL opts.cloneOption e.Name) st.next)
      ∧ lookupBy st1.cache κ
        = some (mkGitilesNode e κ.1
            (fileCloneHint opts.cloneURL opts.cloneOption e.Name) st.next) := by
  unfold entryKeyOf at hκ
  by_cases hb : e.typ = "blob"
  · rw [if_pos hb] at hκ
    cases hp : parseID e.ID with
    | none => rw [hp] at hκ; cases hκ
    | some id =>
        rw [hp] at hκ
        simp only [Option.map_some', Option.some_inj] at hκ
        subst hκ
        unfold processEntry at hok
        have hc : ¬ e.typ = "commit" := by rw [hb]; decide
        simp only [if_neg hc] at hok
        have hb' : ¬ e.typ ≠ "blob" := by rw [hb]; simp
        simp only [if_neg hb', hp] at hok
        simp only [hl] at hok
        cases hok
        refine ⟨rfl, ?_⟩
        unfold lookupBy
        rw [if_pos rfl]
  · rw [if_neg hb] at hκ; cases hκ

/-- Fold version of `processEntry_cache_persist`. -/
theorem onMountEntries_cache_persist (opts : GitilesOpts) (es : List TreeEntry) :
    ∀ st st' asg, onMountEntries opts st es = .ok (st', asg) →
      ∀ κ n, lookupBy st.cache κ = some n → lookupBy st'.cache κ = some n := by
  induction es with
  | nil =>
      intro st st' asg hok κ n hl
      unfold onMountEntries at hok
      cases hok; exact hl
  | cons e es ih =>
      intro st st' asg hok κ n hl
      unfold onMountEntries at hok
      cases hp : processEntry opts st e with
      | error err => simp only [hp] at hok; cases hok
      | ok r1 =>
          obtain ⟨st1, a⟩ := r1
          simp only [hp] at hok
          cases hrest : onMountEntries opts st1 es with
          | error err => simp only [hrest] at hok; cases hok
          | ok r2 =>
              obtain ⟨st2, rest⟩ := r2
              simp only [hrest] at hok
              cases hok
              exact ih _ _ _ hrest κ n
                (processEntry_cache_persist opts st e st1 a hp κ n hl)

/-- Fold version of `processEntry_cache_absent`: a key none of the entries
carries stays missed. -/
theorem onMountEntries_cache_absent (opts : GitilesOpts) (es : List TreeEntry) :
    ∀ st st' asg, onMountEntries opts st es = .ok (st', asg) →
      ∀ κ, lookupBy st.cache κ = none →
        (∀ e ∈ es, entryKeyOf e ≠ some κ) → lookupBy st'.cache κ = none := by
  induction es with
  | nil =>
      intro st st' asg hok κ hl _
      unfold onMountEntries at hok
      cases hok; exact hl
  | cons e es ih =>
      intro st st' asg hok κ hl hks
      unfold onMountEntries at hok
      cases hp : processEntry opts st e with
      | error err => simp only [hp] at hok; cases hok
      | ok r1 =>
          obtain ⟨st1, a⟩ := r1
          simp only [hp] at hok
          cases hrest : onMountEntries opts st1 es with
          | error err => simp only [hrest] at hok; cases hok
          | ok r2 =>
              obtain ⟨st2, rest⟩ := r2
              simp only [hrest] at hok
              cases hok
              refine ih _ _ _ hrest κ ?_
                (fun x hx => hks x (List.mem_cons_of_mem e hx))
              exact processEntry_cache_absent opts st e st1 a hp κ hl
                (hks e (List.mem_cons_self e es))

/-- The fold assigns one node slot per entry. -/
theorem onMountEntries_length (opts : GitilesOpts) (es : List TreeEntry) :
    ∀ st st' asg, onMountEntries opts st es = .ok (st', asg) → asg.length = es.length := by
  induction es with
  | nil =>
      intro st st' asg hok
      unfold onMountEntries at hok
      cases hok; rfl
  | cons e es ih =>
      intro st st' asg hok
      unfold onMountEntries at hok
      cases hp : processEntry opts st e with
      | error err => simp only [hp] at hok; cases hok
      | ok r1 =>
          obtain ⟨st1, a⟩ := r1
          simp only [hp] at hok
          cases hrest : onMountEntries opts st1 es with
          | error err => simp only [hrest] at hok; cases hok
          | ok r2 =>
              obtain ⟨st2, rest⟩ := r2
              simp only [hrest] at hok
              cases hok
              simp [ih _ _ _ hrest]

/-- The fold splits along list append. -/
theorem onMountEntries_append (opts : GitilesOpts) (l1 l2 : List TreeEntry) :
    ∀ st st' asg, onMountEntries opts st (l1 ++ l2) = .ok (st', asg) →
      ∃ st1 a1 a2, onMountEntries opts st l1 = .ok (st1, a1) ∧
        onMountEntries opts st1 l2 = .ok (st', a2) ∧ asg = a1 ++ a2 := by
  induction l1 with
  | nil =>
      intro st st' asg hok
      exact ⟨st, [], asg, rfl, hok, rfl⟩
  | cons e es ih =>
      intro st st' asg hok
      rw [List.cons_append] at hok
      unfold onMountEntries at hok
      cases hp : processEntry opts st e with
      | error err => simp only [hp] at hok; cases hok
      | ok r1 =>
          obtain ⟨st1, a⟩ := r1
          simp only [hp] at hok
          cases hrest : onMountEntries opts st1 (es ++ l2) with
          | error err => simp only [hrest] at hok; cases hok
          | ok r2 =>
              obtain ⟨st2, rest⟩ := r2
              simp only [hrest] at hok
              cases hok
              obtain ⟨stm, a1, a2, hA, hB, hC⟩ := ih _ _ _ hrest
              refine ⟨stm, a :: a1, a2, ?_, hB, by rw [hC]; rfl⟩
              simp only [onMountEntries, hp, hA]

/-- A blob entry whose key is already cached is assigned the cached node. -/
theorem onMountEntries_assign_cached (opts : GitilesOpts) (es : List TreeEntry) :
    ∀ st st' asg, onMountEntries opts st es = .ok (st', asg) →
      ∀ κ n, lookupBy st.cache κ = some n →
        ∀ idx e, es.get? idx = some e → entryKeyOf e = some κ →
          asg.get? idx = some (some n) := by
  induction es with
  | nil =>
      intro st st' asg hok κ n hl idx e hidx
      simp at hidx
  | cons e0 es ih =>
      intro st st' asg hok κ n hl idx e hidx hκ
      unfold onMountEntries at hok
      cases hp : processEntry opts st e0 with
      | error err => simp only [hp] at hok; cases hok
      | ok r1 =>
          obtain ⟨st1, a⟩ := r1
          simp only [hp] at hok
          cases hrest : onMountEntries opts st1 es with
          | error err => simp only [hrest] at hok; cases hok
          | ok r2 =>
              obtain ⟨st2, rest⟩ := r2
              simp only [hrest] at hok
              cases hok
              cases idx with
              | zero =>
                  have he : e0 = e := by simpa using hidx
                  rw [← he] at hκ
                  unfold entryKeyOf at hκ
                  unfold processEntry at hp
                  by_cases hb : e0.typ = "blob"
                  · rw [if_pos hb] at hκ
                    cases hpid : parseID e0.ID with
                    | none => rw [hpid] at hκ; cases hκ
                    | some id =>
                        rw [hpid] at hκ
                        simp only [Option.map_some', Option.some_inj] at hκ
                        have hc : ¬ e0.typ = "commit" := by rw [hb]; decide
                        have hb' : ¬ e0.typ ≠ "blob" := by rw [hb]; simp
                        simp only [if_neg hc, if_neg hb', hpid] at hp
                        rw [← hκ] at hl
                        simp only [hl] at hp
                        cases hp
                        rfl
                  · rw [if_neg hb] at hκ; cases hκ
              | succ m =>
                  simp only [List.get?_cons_succ] at hidx
                  have hl1 : lookupBy st1.cache κ = some n :=
                    processEntry_cache_persist opts st e0 st1 a hp κ n hl
                  have := ih _ _ _ hrest κ n hl1 m e hidx hκ
                  simpa using this

/-- C10: during construction, two blob entries with the same Hash and the
same executable bit are attached to the SAME `gitilesNode`, and that node
carries the mode, size and symlink target of the first entry inserted into
the `nodeCache` under that key — the later entry's metadata is ignored.
`i` is the first entry with the key (no earlier entry carries it) and the
key is not in the initial cache. -/
theorem nodeCache_entry_sharing
    (opts : GitilesOpts) (st0 : OnMountState) (es : List TreeEntry)
    (stF : OnMountState) (asg : List (Option GitilesNode))
    (hok : onMountEntries opts st0 es = .ok (stF, asg))
    (kk : Hash × Bool) (hfresh : lookupBy st0.cache kk = none)
    (i j : Nat) (hij : i < j)
    (ei ej : TreeEntry)
    (hei : es.get? i = some ei) (hej : es.get? j = some ej)
    (hki : entryKeyOf ei = some kk) (hkj : entryKeyOf ej = some kk)
    (hfirst : ∀ k, k < i → ∀ ek, es.get? k = some ek → entryKeyOf ek ≠ some kk) :
    ∃ n, asg.get? i = some (some n) ∧ asg.get? j = some (some n) ∧
      n = mkGitilesNode ei kk.1
            (fileCloneHint opts.cloneURL opts.cloneOption ei.Name) n.created := by
  have hilen : i < es.length := (List.get?_eq_some.mp hei).1
  have hok' : onMountEntries opts st0 (es.take i ++ es.drop i) = .ok (stF, asg) := by
    rw [List.take_append_drop]; exact hok
  obtain ⟨stA, a1, a2, hA, hB, hC⟩ :=
    onMountEntries_append opts (es.take i) (es.drop i) st0 stF asg hok'
  have ha1len : a1.length = i := by
    have := onMountEntries_length opts (es.take i) st0 stA a1 hA
    rw [this, List.length_take]
    omega
  have hAnone : lookupBy stA.cache kk = none := by
    refine onMountEntries_cache_absent opts (es.take i) st0 stA a1 hA kk hfresh ?_
    intro e he
    obtain ⟨k, hk⟩ := List.mem_iff_get?.mp he
    have hklt : k < i := by
      have : k < (es.take i).length := (List.get?_eq_some.mp hk).1
      rw [List.length_take] at this
      omega
    have : es.get? k = some e := by rw [← List.get?_take hklt]; exact hk
    exact hfirst k hklt e this
  have hdropc : es.drop i = ei :: es.drop (i + 1) := by
    have hget : es[i] = ei := by
      have := hei
      rw [List.get?_eq_getElem?, List.getElem?_eq_getElem hilen] at this
      exact Option.some_inj.mp this
    rw [← hget]
    exact List.drop_eq_getElem_cons hilen
  rw [hdropc] at hB
  unfold onMountEntries at hB
  cases hp : processEntry opts stA ei with
  | error err => simp only [hp] at hB; cases hB
  | ok r1 =>
      obtain ⟨stB, aH⟩ := r1
      simp only [hp] at hB
      cases hrest : onMountEntries opts stB (es.drop (i + 1)) with
      | error err => simp only [hrest] at hB; cases hB
      | ok r2 =>
          obtain ⟨stC, a3⟩ := r2
          simp only [hrest] at hB
          cases hB
          obtain ⟨haH, hcacheB⟩ := processEntry_create opts stA ei stB aH hp kk hki hAnone
          have hj' : (es.drop (i + 1)).get? (j - i - 1) = some ej := by
            rw [List.get?_drop]
            rw [show i + 1 + (j - i - 1) = j from by omega]
            exact hej
          have ha3 := onMountEntries_assign_cached opts (es.drop (i + 1)) stB _ _ hrest
            kk _ hcacheB (j - i - 1) ej hj' hkj
          refine ⟨mkGitilesNode ei kk.1
            (fileCloneHint opts.cloneURL opts.cloneOption ei.Name) stA.next, ?_, ?_, rfl⟩
          · rw [hC, List.get?_append_right (by omega : a1.length ≤ i), ha1len,
              Nat.sub_self, List.get?_cons_zero, haH]
          · rw [hC, List.get?_append_right (by omega : a1.length ≤ j), ha1len]
            rw [show j - i = (j - i - 1) + 1 from by omega, List.get?_cons_succ]
            exact ha3

/-- Concrete symlink entry: mode `0120000`, target `"t"`, blob `hash1`. -/
def c10e1 : TreeEntry :=
  { Name := "a", ID := hash1.hexString, Mode := 0o120000, typ := "blob",
    Size := some 5, Target := some "t" }

/-- Concrete regular-file entry: mode `0100644`, same blob `hash1`. -/
def c10e2 : TreeEntry :=
  { Name := "b", ID := hash1.hexString, Mode := 0o100644, typ := "blob",
    Size := some 7, Target := none }

/-- Options without a clone URL. -/
def c10opts : GitilesOpts := { cloneURL := "", cloneOption := [] }

/-- The node allocated for `c10e1`. -/
def c10n1 : GitilesNode := mkGitilesNode c10e1 hash1 false 0

/-- Witness for C10: mounting `[c10e1, c10e2]` (a symlink and a regular
file naming the same blob, both with executable bit clear) attaches the
same node to both entries, and its metadata is `c10e1`'s. -/
theorem nodeCache_entry_sharing_witness :
    ∃ n, [some c10n1, some c10n1].get? 0 = some (some n) ∧
      [some c10n1, some c10n1].get? 1 = some (some n) ∧
      n = mkGitilesNode c10e1 ((hash1, false) : Hash × Bool).1
            (fileCloneHint c10opts.cloneURL c10opts.cloneOption c10e1.Name) n.created := by
  have hok : onMountEntries c10opts ⟨[], [], 0⟩ [c10e1, c10e2]
      = .ok (⟨[((hash1, false), c10n1)], [(hash1, "a")], 1⟩, [some c10n1, some c10n1]) := by
    rfl
  exact nodeCache_entry_sharing c10opts ⟨[], [], 0⟩ [c10e1, c10e2] _ _ hok
    (hash1, false) rfl 0 1 (by omega) c10e1 c10e2 rfl rfl (by decide) (by decide)
    (fun k hk ek _ => absurd hk (Nat.not_lt_zero k))

/-! ## C1: single-flight blob fetching (`fs/gitilesfs.go:202-289`)

`gitilesRoot.openFile` first probes the CAS without the lock; on a miss,
`fetchFile` takes `fetchingCond.L`, waits while `fetching[id]` is set,
re-probes the CAS, and only then marks `id` in flight and releases the lock
around `fetchFileExpensive`; on return it re-takes the lock, deletes `id`
from the in-flight set (the deferred delete runs before the deferred
unlock) and broadcasts.  `fetchFileExpensive` writes the blob into the CAS
before returning on success.

The embedding is a labelled transition system: one process with an
in-flight set, a CAS content set, and a list of threads, each at a program
counter of `fetchFile`.  Every lock-protected region is one atomic step
(the mutex serializes them); a waiting thread's re-check fires only once
`h` has left the in-flight set, since while it is set the woken thread
loops straight back into `Wait`. -/

/-- Program counter of one kernel-originated read inside the fetch path. -/
inductive FetchPC where
  /-- Not inside `fetchFile` (or returned from it). -/
  | idle
  /-- Blocked in `fetchingCond.Wait` for `h`. -/
  | waiting (h : Hash)
  /-- Running `fetchFileExpensive h` with the lock released. -/
  | fetchingExp (h : Hash)
  /-- `fetchFileExpensive` returned (`ok` = success, CAS already written);
  about to re-take the lock, delete `h` and broadcast. -/
  | finishing (h : Hash) (ok : Bool)
deriving DecidableEq, Repr

/-- Shared state of the fetch engine plus the thread pool. -/
structure FetchState where
  /-- The in-flight set `r.fetching`. -/
  fetching : List Hash
  /-- Hashes whose blobs the CAS holds. -/
  cas : List Hash
  /-- The program counter of every thread. -/
  threads : List FetchPC
deriving DecidableEq, Repr

/-- Atomic steps of the fetch engine.  A step picks one thread (the
decomposition `pre ++ pc :: post`) and follows `fetchFile`'s control flow;
CAS hits that return without changing shared state are stutters and are
omitted. -/
inductive FetchStep : FetchState → FetchState → Prop where
  /-- `fetchFile` entered with a CAS miss while `h` is in flight: wait. -/
  | callWait (pre post : List FetchPC) (f cas : List Hash) (h : Hash)
      (hc : h ∉ cas) (hf : h ∈ f) :
      FetchStep ⟨f, cas, pre ++ FetchPC.idle :: post⟩
        ⟨f, cas, pre ++ FetchPC.waiting h :: post⟩
  /-- `fetchFile` entered with a CAS miss and `h` not in flight: insert `h`
  and start the expensive fetch. -/
  | callFetch (pre post : List FetchPC) (f cas : List Hash) (h : Hash)
      (hc : h ∉ cas) (hf : h ∉ f) :
      FetchStep ⟨f, cas, pre ++ FetchPC.idle :: post⟩
        ⟨h :: f, cas, pre ++ FetchPC.fetchingExp h :: post⟩
  /-- A woken waiter leaves the wait loop (`h` no longer in flight) and
  finds the blob in the CAS: return. -/
  | wakeHit (pre post : List FetchPC) (f cas : List Hash) (h : Hash)
      (hf : h ∉ f) (hc : h ∈ cas) :
      FetchStep ⟨f, cas, pre ++ FetchPC.waiting h :: post⟩
        ⟨f, cas, pre ++ FetchPC.idle :: post⟩
  /-- A woken waiter leaves the wait loop, re-probes the CAS, misses, and
  initiates its own fetch. -/
  | wakeFetch (pre post : List FetchPC) (f cas : List Hash) (h : Hash)
      (hf : h ∉ f) (hc : h ∉ cas) :
      FetchStep ⟨f, cas, pre ++ FetchPC.waiting h :: post⟩
        ⟨h :: f, cas, pre ++ FetchPC.fetchingExp h :: post⟩
  /-- `fetchFileExpensive` returns, having written the CAS on success. -/
  | fetchDone (pre post : List FetchPC) (f cas : List Hash) (h : Hash) (ok : Bool) :
      FetchStep ⟨f, cas, pre ++ FetchPC.fetchingExp h :: post⟩
        ⟨f, (if ok then h :: cas else cas), pre ++ FetchPC.finishing h ok :: post⟩
  /-- Under the lock: delete `h` from the in-flight set, broadcast,
  return. -/
  | finish (pre post : List FetchPC) (f cas : List Hash) (h : Hash) (ok : Bool) :
      FetchStep ⟨f, cas, pre ++ FetchPC.finishing h ok :: post⟩
        ⟨f.erase h, cas, pre ++ FetchPC.idle :: post⟩

/-- Reflexive-transitive closure of `FetchStep`. -/
inductive FetchReachable : FetchState → FetchState → Prop where
  | refl (s : FetchState) : FetchReachable s s
  | tail {s t u : FetchState} : FetchReachable s t → FetchStep t u → FetchReachable s u

/-- Initial states: nothing in flight, every thread idle (the CAS may hold
anything). -/
def FetchInit (s : FetchState) : Prop :=
  s.fetching = [] ∧ ∀ pc ∈ s.threads, pc = FetchPC.idle

/-- A thread owning the fetch of `h`: it is running `fetchFileExpensive h`
or has not yet removed `h` from the in-flight set. -/
def ownerB (h : Hash) (pc : FetchPC) : Bool :=
  match pc with
  | FetchPC.fetchingExp h' => h' = h
  | FetchPC.finishing h' _ => h' = h
  | _ => false

/-- The inductive invariant: per Hash at most one owner, and every owner's
Hash is in the in-flight set. -/
def FetchInv (s : FetchState) : Prop :=
  ∀ h : Hash, s.threads.countP (ownerB h) ≤ 1 ∧
    (∀ pc ∈ s.threads, ownerB h pc = true → h ∈ s.fetching)

/-- No owners at all when the in-flight set misses `h`. -/
theorem countP_owner_eq_zero (h : Hash) (f cas : List Hash) (ts : List FetchPC)
    (hinv : FetchInv ⟨f, cas, ts⟩) (hf : h ∉ f) :
    ts.countP (ownerB h) = 0 := by
  rw [List.countP_eq_zero]
  intro pc hpc hown
  exact hf ((hinv h).2 pc hpc hown)

/-- `FetchInv` holds initially. -/
theorem fetchInv_init (s : FetchState) (hinit : FetchInit s) : FetchInv s := by
  obtain ⟨hf, hidle⟩ := hinit
  intro h
  constructor
  · have : s.threads.countP (ownerB h) = 0 := by
      rw [List.countP_eq_zero]
      intro pc hpc hown
      rw [hidle pc hpc] at hown
      simp [ownerB] at hown
    omega
  · intro pc hpc hown
    rw [hidle pc hpc] at hown
    simp [ownerB] at hown

/-- Counting a predicate over a thread list split at one position. -/
theorem countP_mid (p : FetchPC → Bool) (pre post : List FetchPC) (x : FetchPC) :
    (pre ++ x :: post).countP p
      = pre.countP p + post.countP p + (if p x = true then 1 else 0) := by
  simp only [List.countP_append, List.countP_cons]
  omega

/-- `ownerB` and a non-owner program counter. -/
theorem ownerB_idle (h : Hash) : ownerB h FetchPC.idle = false := rfl

/-- Waiting threads own nothing. -/
theorem ownerB_waiting (h h' : Hash) : ownerB h (FetchPC.waiting h') = false := rfl

/-- A fetching thread owns exactly its Hash. -/
theorem ownerB_fetchingExp (h h' : Hash) :
    ownerB h (FetchPC.fetchingExp h') = decide (h' = h) := rfl

/-- A finishing thread owns exactly its Hash. -/
theorem ownerB_finishing (h h' : Hash) (ok : Bool) :
    ownerB h (FetchPC.finishing h' ok) = decide (h' = h) := rfl

/-- Membership in the threads of a split list. -/
theorem mem_mid_iff (pc x : FetchPC) (pre post : List FetchPC) :
    pc ∈ pre ++ x :: post ↔ pc ∈ pre ∨ pc = x ∨ pc ∈ post := by
  simp [List.mem_append, List.mem_cons]

/-- `FetchInv` is preserved by every step. -/
theorem fetchInv_step (s t : FetchState) (hst : FetchStep s t) (hinv : FetchInv s) :
    FetchInv t := by
  cases hst with
  | callWait pre post f cas h hc hf =>
      intro h'
      have hv1 := (hinv h').1
      rw [countP_mid] at hv1
      rw [ownerB_idle] at hv1
      constructor
      · rw [countP_mid, ownerB_waiting]
        omega
      · intro pc hpc hown
        rcases (mem_mid_iff pc _ pre post).mp hpc with hm | hm | hm
        · exact (hinv h').2 pc ((mem_mid_iff pc _ pre post).mpr (Or.inl hm)) hown
        · rw [hm, ownerB_waiting] at hown; cases hown
        · exact (hinv h').2 pc ((mem_mid_iff pc _ pre post).mpr (Or.inr (Or.inr hm))) hown
  | callFetch pre post f cas h hc hf =>
      intro h'
      have hz := countP_owner_eq_zero h f cas (pre ++ FetchPC.idle :: post) hinv hf
      rw [countP_mid, ownerB_idle] at hz
      have hv1 := (hinv h').1
      rw [countP_mid, ownerB_idle] at hv1
      constructor
      · rw [countP_mid, ownerB_fetchingExp]
        by_cases hh : h' = h
        · subst hh
          have hpz : pre.countP (ownerB h') = 0 := by omega
          have hqz : post.countP (ownerB h') = 0 := by omega
          rw [hpz, hqz]
          simp
        · have : (decide (h = h') : Bool) = false :=
            decide_eq_false (fun x => hh x.symm)
          rw [this]
          omega
      · intro pc hpc hown
        rcases (mem_mid_iff pc _ pre post).mp hpc with hm | hm | hm
        · exact List.mem_cons_of_mem _
            ((hinv h').2 pc ((mem_mid_iff pc _ pre post).mpr (Or.inl hm)) hown)
        · rw [hm, ownerB_fetchingExp, decide_eq_true_eq] at hown
          rw [hown]
          exact List.mem_cons_self _ _
        · exact List.mem_cons_of_mem _
            ((hinv h').2 pc ((mem_mid_iff pc _ pre post).mpr (Or.inr (Or.inr hm))) hown)
  | wakeHit pre post f cas h hf hc =>
      intro h'
      have hv1 := (hinv h').1
      rw [countP_mid, ownerB_waiting] at hv1
      constructor
      · rw [countP_mid, ownerB_idle]
        omega
      · intro pc hpc hown
        rcases (mem_mid_iff pc _ pre post).mp hpc with hm | hm | hm
        · exact (hinv h').2 pc ((mem_mid_iff pc _ pre post).mpr (Or.inl hm)) hown
        · rw [hm, ownerB_idle] at hown; cases hown
        · exact (hinv h').2 pc ((mem_mid_iff pc _ pre post).mpr (Or.inr (Or.inr hm))) hown
  | wakeFetch pre post f cas h hf hc =>
      intro h'
      have hz := countP_owner_eq_zero h f cas (pre ++ FetchPC.waiting h :: post) hinv hf
      rw [countP_mid, ownerB_waiting] at hz
      have hv1 := (hinv h').1
      rw [countP_mid, ownerB_waiting] at hv1
      constructor
      · rw [countP_mid, ownerB_fetchingExp]
        by_cases hh : h' = h
        · subst hh
          have hpz : pre.countP (ownerB h') = 0 := by omega
          have hqz : post.countP (ownerB h') = 0 := by omega
          rw [hpz, hqz]
          simp
        · have : (decide (h = h') : Bool) = false :=
            decide_eq_false (fun x => hh x.symm)
          rw [this]
          omega
      · intro pc hpc hown
        rcases (mem_mid_iff pc _ pre post).mp hpc with hm | hm | hm
        · exact List.mem_cons_of_mem _
            ((hinv h').2 pc ((mem_mid_iff pc _ pre post).mpr (Or.inl hm)) hown)
        · rw [hm, ownerB_fetchingExp, decide_eq_true_eq] at hown
          rw [hown]
          exact List.mem_cons_self _ _
        · exact List.mem_cons_of_mem _
            ((hinv h').2 pc ((mem_mid_iff pc _ pre post).mpr (Or.inr (Or.inr hm))) hown)
  | fetchDone pre post f cas h ok =>
      intro h'
      have hv1 := (hinv h').1
      rw [countP_mid, ownerB_fetchingExp] at hv1
      constructor
      · rw [countP_mid, ownerB_finishing]
        omega
      · intro pc hpc hown
        rcases (mem_mid_iff pc _ pre post).mp hpc with hm | hm | hm
        · exact (hinv h').2 pc ((mem_mid_iff pc _ pre post).mpr (Or.inl hm)) hown
        · rw [hm, ownerB_finishing] at hown
          refine (hinv h').2 (FetchPC.fetchingExp h)
            ((mem_mid_iff _ _ pre post).mpr (Or.inr (Or.inl rfl))) ?_
          rw [ownerB_fetchingExp]
          exact hown
        · exact (hinv h').2 pc ((mem_mid_iff pc _ pre post).mpr (Or.inr (Or.inr hm))) hown
  | finish pre post f cas h ok =>
      intro h'
      have hv1 := (hinv h').1
      rw [countP_mid, ownerB_finishing] at hv1
      constructor
      · rw [countP_mid, ownerB_idle, if_neg (by decide : ¬ (false = true))]
        omega
      · intro pc hpc hown
        by_cases hh : h' = h
        · subst hh
          exfalso
          have hone : (decide (h' = h') : Bool) = true := by simp
          rw [hone, if_pos rfl] at hv1
          have hpz : pre.countP (ownerB h') = 0 := by omega
          have hqz : post.countP (ownerB h') = 0 := by omega
          rcases (mem_mid_iff pc _ pre post).mp hpc with hm | hm | hm
          · exact (List.countP_eq_zero.mp hpz pc hm) hown
          · rw [hm, ownerB_idle] at hown; cases hown
          · exact (List.countP_eq_zero.mp hqz pc hm) hown
        · have hmemf : h' ∈ f := by
            rcases (mem_mid_iff pc _ pre post).mp hpc with hm | hm | hm
            · exact (hinv h').2 pc ((mem_mid_iff pc _ pre post).mpr (Or.inl hm)) hown
            · rw [hm, ownerB_idle] at hown; cases hown
            · exact (hinv h').2 pc
                ((mem_mid_iff pc _ pre post).mpr (Or.inr (Or.inr hm))) hown
          exact (List.mem_erase_of_ne hh).mpr hmemf

/-- `FetchInv` holds in every reachable state. -/
theorem fetchInv_reachable (s0 s : FetchState) (hinit : FetchInit s0)
    (hr : FetchReachable s0 s) : FetchInv s := by
  induction hr with
  | refl => exact fetchInv_init s0 hinit
  | tail hr hst ih => exact fetchInv_step _ _ hst ih

/-- C1: in every state reachable from an initial state, at most one thread
is running `fetchFileExpensive` for any given Hash, however many concurrent
reads target blobs with that Hash; a thread that found the Hash in flight
is waiting, and (by the shape of `FetchStep`) initiates its own fetch only
once the Hash has left the in-flight set and the blob is still absent from
the CAS. -/
theorem fetchFile_single_flight (s0 s : FetchState) (hinit : FetchInit s0)
    (hr : FetchReachable s0 s) (h : Hash) :
    s.threads.countP (fun pc => pc = FetchPC.fetchingExp h) ≤ 1 := by
  have hinv := fetchInv_reachable s0 s hinit hr h
  refine le_trans (List.countP_mono_left ?_) hinv.1
  intro pc _ hpc
  simp only [decide_eq_true_eq] at hpc
  subst hpc
  simp [ownerB]

/-- A two-thread run: thread 0 starts the expensive fetch for `hash0`,
thread 1 arrives, finds it in flight and waits. -/
def fetchDemo : FetchState :=
  ⟨[hash0], [], [FetchPC.fetchingExp hash0, FetchPC.waiting hash0]⟩

/-- Witness for C1 at a concrete reachable state with one fetching and one
waiting thread. -/
theorem fetchFile_single_flight_witness :
    fetchDemo.threads.countP (fun pc => pc = FetchPC.fetchingExp hash0) ≤ 1 := by
  have h1 : FetchStep ⟨[], [], [FetchPC.idle, FetchPC.idle]⟩
      ⟨[hash0], [], [FetchPC.fetchingExp hash0, FetchPC.idle]⟩ :=
    FetchStep.callFetch [] [FetchPC.idle] [] [] hash0 (by simp) (by simp)
  have h2 : FetchStep ⟨[hash0], [], [FetchPC.fetchingExp hash0, FetchPC.idle]⟩
      fetchDemo :=
    FetchStep.callWait [FetchPC.fetchingExp hash0] [] [hash0] [] hash0 (by simp)
      (by simp)
  exact fetchFile_single_flight ⟨[], [], [FetchPC.idle, FetchPC.idle]⟩ fetchDemo
    ⟨rfl, by decide⟩
    (FetchReachable.tail (FetchReachable.tail (FetchReachable.refl _) h1) h2) hash0


/-! ## C4: the populate diff (`src/unnamed/part_014:175-195`, `changedFiles`)

`changedFiles` walks the `newInfos` map; a path missing from `oldInfos` is
ADDED; a path present in both is CHANGED when either side has a nil SHA1 or
the 20-byte SHA1s differ; both result slices are sorted with
`sort.Strings`.  Maps become association lists (iteration order = list
order; the results are sorted, so it does not matter), and `sort.Strings`'
byte-wise lexicographic order is `strLe` (UTF-8 byte order coincides with
code-point order). -/

/-- `fileInfo` (`populate/repotree.go`): an optional SHA1. -/
structure FileInfo where
  sha1 : Option Hash
deriving DecidableEq, Repr

/-- Lexicographic order on char lists (Go's string `<=`). -/
def charsLe : List Char → List Char → Bool
  | [], _ => true
  | _ :: _, [] => false
  | a :: as, b :: bs => if a = b then charsLe as bs else decide (a < b)

/-- Go's string comparison, on the code points. -/
def strLe (a b : String) : Bool :=
  charsLe a.data b.data

/-- `charsLe` is transitive. -/
theorem charsLe_trans : ∀ x y z : List Char,
    charsLe x y = true → charsLe y z = true → charsLe x z = true := by
  intro x
  induction x with
  | nil => intro y z _ _; rfl
  | cons a as ih =>
      intro y z hxy hyz
      cases y with
      | nil => simp [charsLe] at hxy
      | cons b bs =>
          cases z with
          | nil => simp [charsLe] at hyz
          | cons c cs =>
              simp only [charsLe] at hxy hyz ⊢
              by_cases hab : a = b
              · subst hab
                rw [if_pos rfl] at hxy
                by_cases hbc : a = c
                · subst hbc
                  rw [if_pos rfl] at hyz ⊢
                  exact ih bs cs hxy hyz
                · rw [if_neg hbc] at hyz ⊢
                  exact hyz
              · rw [if_neg hab] at hxy
                simp only [decide_eq_true_eq] at hxy
                by_cases hbc : b = c
                · subst hbc
                  rw [if_neg hab]
                  simpa using hxy
                · rw [if_neg hbc] at hyz
                  simp only [decide_eq_true_eq] at hyz
                  have hac : a < c := lt_trans hxy hyz
                  rw [if_neg (ne_of_lt hac)]
                  simpa using hac

/-- `charsLe` is total. -/
theorem charsLe_total : ∀ x y : List Char,
    (charsLe x y || charsLe y x) = true := by
  intro x
  induction x with
  | nil => intro y; simp [charsLe]
  | cons a as ih =>
      intro y
      cases y with
      | nil => simp [charsLe]
      | cons b bs =>
          simp only [charsLe]
          by_cases hab : a = b
          · subst hab
            rw [if_pos rfl, if_pos rfl]
            exact ih bs
          · rw [if_neg hab, if_neg (Ne.symm hab)]
            rcases lt_or_gt_of_ne hab with hlt | hgt
            · simp [hlt]
            · simp [hgt]

/-- The accumulation loop of `changedFiles`, before sorting. -/
def changedFilesRaw (old : List (String × FileInfo)) :
    List (String × FileInfo) → List String × List String
  | [] => ([], [])
  | (p, info) :: rest =>
      let r := changedFilesRaw old rest
      match lookupBy old p with
      | none => (p :: r.1, r.2)
      | some oldInfo =>
          if oldInfo.sha1 = none ∨ info.sha1 = none then (r.1, p :: r.2)
          else if oldInfo.sha1 ≠ info.sha1 then (r.1, p :: r.2)
          else r

/-- `changedFiles`: accumulate, then `sort.Strings` both slices. -/
def changedFiles (old new : List (String × FileInfo)) : List String × List String :=
  let r := changedFilesRaw old new
  (r.1.mergeSort strLe, r.2.mergeSort strLe)

/-- The ADDED test of one iteration. -/
def addedP (old : List (String × FileInfo)) (x : String × FileInfo) : Bool :=
  (lookupBy old x.1).isNone

/-- The CHANGED test of one iteration. -/
def changedP (old : List (String × FileInfo)) (x : String × FileInfo) : Bool :=
  match lookupBy old x.1 with
  | none => false
  | some o =>
      if o.sha1 = none ∨ x.2.sha1 = none then true else decide (o.sha1 ≠ x.2.sha1)

/-- The loop is a pair of filters. -/
theorem changedFilesRaw_eq (old : List (String × FileInfo)) :
    ∀ new, changedFilesRaw old new
      = ((new.filter (addedP old)).map Prod.fst,
          (new.filter (changedP old)).map Prod.fst) := by
  intro new
  induction new with
  | nil => rfl
  | cons x rest ih =>
      obtain ⟨p, info⟩ := x
      simp only [changedFilesRaw, ih]
      cases hl : lookupBy old p with
      | none =>
          have ha : addedP old (p, info) = true := by simp [addedP, hl]
          have hc : changedP old (p, info) = false := by simp [changedP, hl]
          simp [List.filter_cons, ha, hc]
      | some o =>
          have ha : addedP old (p, info) = false := by simp [addedP, hl]
          by_cases h1 : o.sha1 = none ∨ info.sha1 = none
          · have hc : changedP old (p, info) = true := by
              simp only [changedP, hl]
              rw [if_pos h1]
            simp [List.filter_cons, ha, hc, if_pos h1]
          · by_cases h2 : o.sha1 ≠ info.sha1
            · have hc : changedP old (p, info) = true := by
                simp only [changedP, hl]
                rw [if_neg h1]
                simpa using h2
              simp [List.filter_cons, ha, hc, if_neg h1, if_pos h2]
            · have hc : changedP old (p, info) = false := by
                simp only [changedP, hl]
                rw [if_neg h1]
                simpa using h2
              simp [List.filter_cons, ha, hc, if_neg h1, if_neg h2]

/-- Successful lookup means membership. -/
theorem lookupBy_mem {α : Type} [DecidableEq String]
    (m : List (String × α)) (p : String) (v : α)
    (h : lookupBy m p = some v) : (p, v) ∈ m := by
  induction m with
  | nil => cases h
  | cons x rest ih =>
      obtain ⟨k, w⟩ := x
      unfold lookupBy at h
      by_cases hk : k = p
      · rw [if_pos hk] at h
        cases h
        rw [hk]
        exact List.mem_cons_self _ _
      · rw [if_neg hk] at h
        exact List.mem_cons_of_mem _ (ih h)

/-- A key is in the key list iff its lookup succeeds. -/
theorem lookupBy_isSome_iff {α : Type} (m : List (String × α)) (p : String) :
    (lookupBy m p).isSome = true ↔ p ∈ m.map Prod.fst := by
  induction m with
  | nil => simp [lookupBy]
  | cons x rest ih =>
      obtain ⟨k, w⟩ := x
      unfold lookupBy
      by_cases hk : k = p
      · rw [if_pos hk]
        simp [hk]
      · rw [if_neg hk]
        simp only [List.map_cons, List.mem_cons]
        rw [ih]
        constructor
        · exact Or.inr
        · rintro (hh | hh)
          · exact absurd hh.symm hk
          · exact hh

/-- With duplicate-free keys, membership determines the lookup. -/
theorem lookupBy_eq_of_mem_nodup {α : Type} (m : List (String × α))
    (hn : (m.map Prod.fst).Nodup) (p : String) (v : α) (hm : (p, v) ∈ m) :
    lookupBy m p = some v := by
  induction m with
  | nil => cases hm
  | cons x rest ih =>
      obtain ⟨k, w⟩ := x
      simp only [List.map_cons, List.nodup_cons] at hn
      rcases List.mem_cons.mp hm with hh | hh
      · cases hh
        unfold lookupBy
        rw [if_pos rfl]
      · unfold lookupBy
        by_cases hk : k = p
        · exfalso
          refine hn.1 ?_
          rw [hk]
          exact List.mem_map.mpr ⟨(p, v), hh, rfl⟩
        · rw [if_neg hk]
          exact ih hn.2 hh

/-- C4: for maps `old` and `new` from path to 20-byte Hash (association
lists with duplicate-free keys whose SHA1s are all present), `changedFiles`
returns ADDED = exactly the paths of `new` absent from `old`, CHANGED =
exactly the paths present in both with differing Hashes; paths only in
`old` appear in neither; no path is in both lists; both lists are sorted
lexicographically. -/
theorem changedFiles_spec (old new : List (String × FileInfo))
    (hOldMap : ∀ x ∈ old, x.2.sha1 ≠ none)
    (hNewMap : ∀ x ∈ new, x.2.sha1 ≠ none)
    (hNodupNew : (new.map Prod.fst).Nodup) :
    (∀ p, p ∈ (changedFiles old new).1 ↔
        p ∈ new.map Prod.fst ∧ p ∉ old.map Prod.fst) ∧
      (∀ p, p ∈ (changedFiles old new).2 ↔
        ∃ h1 h2 : Hash, lookupBy old p = some ⟨some h1⟩ ∧
          lookupBy new p = some ⟨some h2⟩ ∧ h1 ≠ h2) ∧
      (∀ p, ¬ (p ∈ (changedFiles old new).1 ∧ p ∈ (changedFiles old new).2)) ∧
      List.Pairwise (fun a b => strLe a b = true) (changedFiles old new).1 ∧
      List.Pairwise (fun a b => strLe a b = true) (changedFiles old new).2 := by
  have hmemA : ∀ p, p ∈ (changedFiles old new).1 ↔
      p ∈ (new.filter (addedP old)).map Prod.fst := by
    intro p
    unfold changedFiles
    rw [changedFilesRaw_eq]
    exact List.mem_mergeSort
  have hmemC : ∀ p, p ∈ (changedFiles old new).2 ↔
      p ∈ (new.filter (changedP old)).map Prod.fst := by
    intro p
    unfold changedFiles
    rw [changedFilesRaw_eq]
    exact List.mem_mergeSort
  have hA : ∀ p, p ∈ (changedFiles old new).1 ↔
      p ∈ new.map Prod.fst ∧ p ∉ old.map Prod.fst := by
    intro p
    rw [hmemA]
    constructor
    · intro hp
      obtain ⟨x, hx, hxp⟩ := List.mem_map.mp hp
      obtain ⟨hxnew, hadd⟩ := List.mem_filter.mp hx
      subst hxp
      refine ⟨List.mem_map.mpr ⟨x, hxnew, rfl⟩, ?_⟩
      intro hmem
      rw [← lookupBy_isSome_iff] at hmem
      unfold addedP at hadd
      rw [Option.isNone_iff_eq_none] at hadd
      rw [hadd] at hmem
      cases hmem
    · rintro ⟨hnew, hold⟩
      obtain ⟨x, hx, hxp⟩ := List.mem_map.mp hnew
      refine List.mem_map.mpr ⟨x, List.mem_filter.mpr ⟨hx, ?_⟩, hxp⟩
      unfold addedP
      rw [Option.isNone_iff_eq_none]
      cases hl : lookupBy old x.1 with
      | none => rfl
      | some o =>
          exfalso
          refine hold ?_
          rw [← hxp, ← lookupBy_isSome_iff, hl]
          rfl
  have hC : ∀ p, p ∈ (changedFiles old new).2 ↔
      ∃ h1 h2 : Hash, lookupBy old p = some ⟨some h1⟩ ∧
        lookupBy new p = some ⟨some h2⟩ ∧ h1 ≠ h2 := by
    intro p
    rw [hmemC]
    constructor
    · intro hp
      obtain ⟨x, hx, hxp⟩ := List.mem_map.mp hp
      obtain ⟨hxnew, hch⟩ := List.mem_filter.mp hx
      subst hxp
      unfold changedP at hch
      cases hl : lookupBy old x.1 with
      | none => simp only [hl] at hch; cases hch
      | some o =>
          simp only [hl] at hch
          have ho : o.sha1 ≠ none := hOldMap (x.1, o) (lookupBy_mem old x.1 o hl)
          have hxs : x.2.sha1 ≠ none := hNewMap x hxnew
          rw [if_neg (by tauto)] at hch
          simp only [decide_eq_true_eq] at hch
          obtain ⟨hv1, hho⟩ := Option.ne_none_iff_exists'.mp ho
          obtain ⟨hv2, hhx⟩ := Option.ne_none_iff_exists'.mp hxs
          have hoeq : o = (⟨some hv1⟩ : FileInfo) := by
            obtain ⟨os⟩ := o
            simp only at hho
            rw [hho]
          have hxeq : x.2 = (⟨some hv2⟩ : FileInfo) := by
            obtain ⟨x1, x2⟩ := x
            obtain ⟨xs⟩ := x2
            simp only at hhx
            simp only [hhx]
          refine ⟨hv1, hv2, ?_, ?_, ?_⟩
          · rw [hoeq]
          · have hlk := lookupBy_eq_of_mem_nodup new hNodupNew x.1 x.2 (by
              obtain ⟨x1, x2⟩ := x
              exact hxnew)
            rw [hlk, hxeq]
          · intro hEq
            refine hch ?_
            rw [hho, hhx, hEq]
    · rintro ⟨h1, h2, hlo, hln, hne⟩
      have hmem : (p, (⟨some h2⟩ : FileInfo)) ∈ new := lookupBy_mem new p _ hln
      refine List.mem_map.mpr ⟨(p, ⟨some h2⟩), List.mem_filter.mpr ⟨hmem, ?_⟩, rfl⟩
      unfold changedP
      simp only [hlo]
      rw [if_neg (by simp)]
      simp only [decide_eq_true_eq]
      intro hEq
      simp only [Option.some_inj] at hEq
      exact hne hEq
  refine ⟨hA, hC, ?_, ?_, ?_⟩
  · intro p ⟨hpa, hpc⟩
    obtain ⟨_, hnold⟩ := (hA p).mp hpa
    obtain ⟨h1, h2, hlo, _, _⟩ := (hC p).mp hpc
    refine hnold ?_
    rw [← lookupBy_isSome_iff, hlo]
    rfl
  · exact List.sorted_mergeSort
      (fun a b c => charsLe_trans a.data b.data c.data)
      (fun a b => charsLe_total a.data b.data) _
  · exact List.sorted_mergeSort
      (fun a b c => charsLe_trans a.data b.data c.data)
      (fun a b => charsLe_total a.data b.data) _

/-- A hash of 20 bytes 0x22. -/
def hash2 : Hash := ⟨List.replicate 20 34⟩

/-- A hash of 20 bytes 0x33. -/
def hash3 : Hash := ⟨List.replicate 20 51⟩

/-- Concrete old map for the C4 witness: `{a: hash0, b/c: hash1}`. -/
def c4old : List (String × FileInfo) := [("a", ⟨some hash0⟩), ("b/c", ⟨some hash1⟩)]

/-- Concrete new map for the C4 witness: `{a: hash2, b/c: hash1, new: hash3}`. -/
def c4new : List (String × FileInfo) :=
  [("a", ⟨some hash2⟩), ("b/c", ⟨some hash1⟩), ("new", ⟨some hash3⟩)]

/-- Witness for C4 at the concrete maps `c4old`, `c4new`. -/
theorem changedFiles_spec_witness :
    (∀ p, p ∈ (changedFiles c4old c4new).1 ↔
        p ∈ c4new.map Prod.fst ∧ p ∉ c4old.map Prod.fst) ∧
      (∀ p, p ∈ (changedFiles c4old c4new).2 ↔
        ∃ h1 h2 : Hash, lookupBy c4old p = some ⟨some h1⟩ ∧
          lookupBy c4new p = some ⟨some h2⟩ ∧ h1 ≠ h2) ∧
      (∀ p, ¬ (p ∈ (changedFiles c4old c4new).1 ∧ p ∈ (changedFiles c4old c4new).2)) ∧
      List.Pairwise (fun a b => strLe a b = true) (changedFiles c4old c4new).1 ∧
      List.Pairwise (fun a b => strLe a b = true) (changedFiles c4old c4new).2 :=
  changedFiles_spec c4old c4new (by decide) (by decide) (by decide)


/-! ## Path-cleaning lemmas

Facts about `goClean`/`goJoinList` on paths whose components are ordinary
names, used for the config-plane (C5) and populate (C2) claims. -/

/-- A path component that `path.Clean` passes through unchanged. -/
def goodComp (c : List Char) : Prop :=
  c ≠ [] ∧ c ≠ ['.'] ∧ c ≠ ['.', '.']

instance (c : List Char) : Decidable (goodComp c) := by
  unfold goodComp; infer_instance

/-- Splitting a slash-free block. -/
theorem splitOnSlashAux_noslash (xs : List Char) (hx : '/' ∉ xs) :
    ∀ acc, splitOnSlashAux xs acc = [acc.reverse ++ xs] := by
  induction xs with
  | nil => intro acc; simp [splitOnSlashAux]
  | cons c cs ih =>
      intro acc
      have hc : ¬ c = '/' := fun hh => hx (hh ▸ List.mem_cons_self c cs)
      rw [splitOnSlashAux, if_neg hc, ih (fun hh => hx (List.mem_cons_of_mem c hh))]
      simp

/-- Splitting distributes over a slash. -/
theorem splitOnSlashAux_append_slash (xs ys : List Char) :
    ∀ acc, splitOnSlashAux (xs ++ '/' :: ys) acc
      = splitOnSlashAux xs acc ++ splitOnSlashAux ys [] := by
  induction xs with
  | nil => intro acc; simp [splitOnSlashAux]
  | cons c cs ih =>
      intro acc
      by_cases hc : c = '/'
      · subst hc
        simp only [List.cons_append, splitOnSlashAux, List.append_eq,
          eq_self_iff_true, if_true]
        rw [ih []]
      · simp only [List.cons_append, splitOnSlashAux, if_neg hc, List.append_eq]
        exact ih (c :: acc)

/-- `splitOnSlash` distributes over a slash. -/
theorem splitOnSlash_append_slash (xs ys : List Char) :
    splitOnSlash (xs ++ '/' :: ys) = splitOnSlash xs ++ splitOnSlash ys :=
  splitOnSlashAux_append_slash xs ys []

/-- The splitter never returns an empty chunk list. -/
theorem splitOnSlashAux_ne_nil (xs : List Char) :
    ∀ acc, splitOnSlashAux xs acc ≠ [] := by
  induction xs with
  | nil => intro acc; simp [splitOnSlashAux]
  | cons c cs ih =>
      intro acc
      rw [splitOnSlashAux]
      by_cases hc : c = '/'
      · rw [if_pos hc]; simp
      · rw [if_neg hc]; exact ih (c :: acc)

/-- `intercalateSlash` over a cons with a nonempty tail. -/
theorem intercalateSlash_cons (a : List Char) (r : List (List Char)) (hr : r ≠ []) :
    intercalateSlash (a :: r) = a ++ '/' :: intercalateSlash r := by
  cases r with
  | nil => exact absurd rfl hr
  | cons b bs => rfl

/-- Joining the chunks of the splitter reproduces the input. -/
theorem intercalateSlash_splitOnSlashAux (xs : List Char) :
    ∀ acc, intercalateSlash (splitOnSlashAux xs acc) = acc.reverse ++ xs := by
  induction xs with
  | nil => intro acc; simp [splitOnSlashAux, intercalateSlash]
  | cons c cs ih =>
      intro acc
      by_cases hc : c = '/'
      · subst hc
        rw [splitOnSlashAux, if_pos rfl,
          intercalateSlash_cons _ _ (splitOnSlashAux_ne_nil cs []), ih]
        simp
      · rw [splitOnSlashAux, if_neg hc, ih]
        simp

/-- Joining the chunks of `splitOnSlash` reproduces the input. -/
theorem intercalateSlash_splitOnSlash (xs : List Char) :
    intercalateSlash (splitOnSlash xs) = xs := by
  unfold splitOnSlash
  rw [intercalateSlash_splitOnSlashAux]
  rfl

/-- `intercalateSlash` over an append of nonempty chunk lists. -/
theorem intercalateSlash_append (a b : List (List Char)) (hb : b ≠ []) :
    intercalateSlash (a ++ b) = match a with
      | [] => intercalateSlash b
      | _ => intercalateSlash a ++ '/' :: intercalateSlash b := by
  induction a with
  | nil => simp
  | cons x xs ih =>
      cases xs with
      | nil =>
          simp only [List.cons_append, List.nil_append]
          rw [intercalateSlash_cons x b hb]
          rfl
      | cons y ys =>
          simp only [List.cons_append]
          rw [intercalateSlash_cons x (y :: (ys ++ b)) (by simp),
            intercalateSlash_cons x (y :: ys) (by simp)]
          simp only at ih
          rw [show (y :: ys ++ b : List (List Char)) = y :: (ys ++ b) from rfl] at ih
          rw [ih]
          simp

/-- Cleaning leaves a list of good components alone. -/
theorem cleanStack_good (rooted : Bool) (comps : List (List Char))
    (h : ∀ c ∈ comps, goodComp c) :
    ∀ stack, cleanStack rooted stack comps = comps.reverse ++ stack := by
  induction comps with
  | nil => intro stack; simp [cleanStack]
  | cons c cs ih =>
      intro stack
      obtain ⟨h1, h2, h3⟩ := h c (List.mem_cons_self c cs)
      rw [cleanStack.eq_def]
      simp only
      rw [if_neg (by simp [h1, h2])]
      rw [if_neg h3]
      rw [ih (fun x hx => h x (List.mem_cons_of_mem c hx))]
      simp


/-! ## The manifest and its serialization (spec-modelled)

The `manifest` package's implementation (`Parse` / `MarshalXML` and the
`Manifest`/`Project` types) is not under `src/` — only its tests and its
callers are.  Following the spec (§6: "a `Parse(bytes) -> Manifest` /
`MarshalXML(Manifest) -> bytes` pair; each Project exposes Name, Path,
Revision, CloneURL, CloneDepth, and ordered Copyfile/Linkfile lists", and
§8(a): `Parse(MarshalXML(M)) = M`), the types are records and the XML
serialization is modelled by an explicit executable byte codec with the
same interface and round-trip law; the concrete byte format stands in for
XML, which the spec leaves to an external library. -/

/-- Modelled from the spec: a `Copyfile` directive (src → dest). -/
structure Copyfile where
  Src : String
  Dest : String
deriving DecidableEq, Repr

/-- Modelled from the spec: a `Linkfile` directive (src → dest). -/
structure Linkfile where
  Src : String
  Dest : String
deriving DecidableEq, Repr

/-- Modelled from the spec: a manifest `Project` with upstream name, mount
path, revision, clone URL, clone-depth hint and copy/link directives. -/
structure Project where
  Name : String
  Path : String
  Revision : String
  CloneURL : String
  CloneDepth : String
  Copyfile : List Copyfile
  Linkfile : List Linkfile
deriving DecidableEq, Repr

/-- Modelled from the spec: a `Manifest` is an ordered list of Projects. -/
structure Manifest where
  Project : List Project
deriving DecidableEq, Repr

/-- Length-prefixed string encoding (the byte-level stand-in for XML). -/
def encStr (s : String) : List Nat :=
  s.data.length :: s.data.map Char.toNat

/-- Decoder for `encStr`, consuming a prefix of the byte list. -/
def decStr : List Nat → Option (String × List Nat)
  | [] => none
  | n :: rest =>
      if n ≤ rest.length then some (⟨(rest.take n).map Char.ofNat⟩, rest.drop n)
      else none

/-- Count-prefixed list encoding. -/
def encList {α : Type} (enc : α → List Nat) (l : List α) : List Nat :=
  l.length :: (l.map enc).flatten

/-- Decode exactly `n` elements. -/
def decListN {α : Type} (dec : List Nat → Option (α × List Nat)) :
    Nat → List Nat → Option (List α × List Nat)
  | 0, bs => some ([], bs)
  | n + 1, bs =>
      match dec bs with
      | none => none
      | some (a, bs1) =>
          match decListN dec n bs1 with
          | none => none
          | some (as2, bs2) => some (a :: as2, bs2)

/-- Decoder for `encList`. -/
def decList {α : Type} (dec : List Nat → Option (α × List Nat)) :
    List Nat → Option (List α × List Nat)
  | [] => none
  | n :: rest => decListN dec n rest

/-- `decStr` inverts `encStr`. -/
theorem decStr_encStr (s : String) (r : List Nat) :
    decStr (encStr s ++ r) = some (s, r) := by
  unfold encStr decStr
  simp only [List.cons_append]
  rw [if_pos (by simp)]
  have hlen : s.data.length = (s.data.map Char.toNat).length := by simp
  rw [hlen, List.take_left, List.drop_left]
  rw [List.map_map]
  have : (Char.ofNat ∘ Char.toNat) = id := by
    funext c
    exact Char.ofNat_toNat c
  rw [this, List.map_id]

/-- `decListN` inverts element-wise encoding. -/
theorem decListN_enc {α : Type} (enc : α → List Nat)
    (dec : List Nat → Option (α × List Nat)) (l : List α)
    (hinv : ∀ a ∈ l, ∀ r, dec (enc a ++ r) = some (a, r)) (r : List Nat) :
    decListN dec l.length ((l.map enc).flatten ++ r) = some (l, r) := by
  induction l with
  | nil => rfl
  | cons a as ih =>
      simp only [List.length_cons, List.map_cons, List.flatten_cons, List.append_assoc]
      rw [decListN]
      simp only [hinv a (List.mem_cons_self a as)]
      simp only [ih (fun x hx => hinv x (List.mem_cons_of_mem a hx))]

/-- `decList` inverts `encList`. -/
theorem decList_encList {α : Type} (enc : α → List Nat)
    (dec : List Nat → Option (α × List Nat)) (l : List α)
    (hinv : ∀ a ∈ l, ∀ r, dec (enc a ++ r) = some (a, r)) (r : List Nat) :
    decList dec (encList enc l ++ r) = some (l, r) := by
  unfold encList decList
  exact decListN_enc enc dec l hinv r

/-- Copyfile encoder. -/
def encCopyfile (c : Copyfile) : List Nat :=
  encStr c.Src ++ encStr c.Dest

/-- Copyfile decoder. -/
def decCopyfile (bs : List Nat) : Option (Copyfile × List Nat) :=
  match decStr bs with
  | none => none
  | some (src, bs1) =>
      match decStr bs1 with
      | none => none
      | some (dest, bs2) => some (⟨src, dest⟩, bs2)

/-- Linkfile encoder. -/
def encLinkfile (c : Linkfile) : List Nat :=
  encStr c.Src ++ encStr c.Dest

/-- Linkfile decoder. -/
def decLinkfile (bs : List Nat) : Option (Linkfile × List Nat) :=
  match decStr bs with
  | none => none
  | some (src, bs1) =>
      match decStr bs1 with
      | none => none
      | some (dest, bs2) => some (⟨src, dest⟩, bs2)

/-- Project encoder. -/
def encProject (p : Project) : List Nat :=
  encStr p.Name ++ encStr p.Path ++ encStr p.Revision ++ encStr p.CloneURL ++
    encStr p.CloneDepth ++ encList encCopyfile p.Copyfile ++ encList encLinkfile p.Linkfile

/-- Project decoder. -/
def decProject (bs : List Nat) : Option (Project × List Nat) :=
  match decStr bs with
  | none => none
  | some (name, b1) =>
      match decStr b1 with
      | none => none
      | some (path, b2) =>
          match decStr b2 with
          | none => none
          | some (rev, b3) =>
              match decStr b3 with
              | none => none
              | some (url, b4) =>
                  match decStr b4 with
                  | none => none
                  | some (depth, b5) =>
                      match decList decCopyfile b5 with
                      | none => none
                      | some (cps, b6) =>
                          match decList decLinkfile b6 with
                          | none => none
                          | some (lks, b7) =>
                              some (⟨name, path, rev, url, depth, cps, lks⟩, b7)

/-- Modelled from the spec: `MarshalXML`. -/
def marshalManifest (mf : Manifest) : List Nat :=
  encList encProject mf.Project

/-- Modelled from the spec: `manifest.Parse`; fails unless the whole input
is a serialized Manifest. -/
def parseManifest (bs : List Nat) : Option Manifest :=
  match decList decProject bs with
  | some (ps, []) => some ⟨ps⟩
  | _ => none

/-- `decCopyfile` inverts `encCopyfile`. -/
theorem decCopyfile_enc (c : Copyfile) (r : List Nat) :
    decCopyfile (encCopyfile c ++ r) = some (c, r) := by
  unfold encCopyfile decCopyfile
  rw [List.append_assoc]
  simp only [decStr_encStr]

/-- `decLinkfile` inverts `encLinkfile`. -/
theorem decLinkfile_enc (c : Linkfile) (r : List Nat) :
    decLinkfile (encLinkfile c ++ r) = some (c, r) := by
  unfold encLinkfile decLinkfile
  rw [List.append_assoc]
  simp only [decStr_encStr]

/-- `decProject` inverts `encProject`. -/
theorem decProject_enc (p : Project) (r : List Nat) :
    decProject (encProject p ++ r) = some (p, r) := by
  unfold encProject decProject
  simp only [List.append_assoc]
  simp only [decStr_encStr]
  simp only [decList_encList encCopyfile decCopyfile p.Copyfile
    (fun a _ rr => decCopyfile_enc a rr)]
  simp only [decList_encList encLinkfile decLinkfile p.Linkfile
    (fun a _ rr => decLinkfile_enc a rr)]

/-- The spec's round trip §8(a): `Parse(MarshalXML(M)) = M`. -/
theorem parseManifest_marshal (mf : Manifest) :
    parseManifest (marshalManifest mf) = some mf := by
  unfold parseManifest marshalManifest
  have hh := decList_encList encProject decProject mf.Project
    (fun a _ rr => decProject_enc a rr) []
  rw [List.append_nil] at hh
  simp only [hh]


/-! ## C5 and C6: the config plane (`src/unnamed/part_019`)

`configNode.Symlink(name, content)` reads the file at `content`, parses it
as a Manifest (EINVAL on failure, before anything is attached), builds a
`ManifestFS` (EIO on failure), attaches it at `/<name>`, installs the
symlink child `config/<name>` with value
`filepath.Join("..", name, ".slothfs", "manifest.xml")`, and runs the
manifest root's `onMount`, which on success serves the marshalled manifest
bytes at `<name>/.slothfs/manifest.xml` and on failure replaces the
subtree with an `ERROR` file.  The host filesystem is a map from path to
bytes; the tree-fetch fan-out of `NewManifestFS` is abstracted by a
`getTree` oracle; the FUSE-connector side of `onMount` is abstracted by
its outcome `mountErr`. -/

/-- The FUSE status codes `configNode.Symlink` can produce. -/
inductive Status where
  | OK
  | EINVAL
  | EIO
  /-- `fuse.ToStatus` of the `ReadFile` error. -/
  | readError
deriving DecidableEq, Repr

/-- A workspace child of the multi-manifest root: a mounted `ManifestFS`
(which serves its manifest bytes at `.slothfs/manifest.xml`) or the
`ERROR`-file stub left by a failed mount. -/
inductive WsNode where
  | mounted (manifestXML : List Nat) (trees : List (String × Tree))
  | errorFile (msg : String)
deriving DecidableEq, Repr

/-- The children of the multi-manifest root and of its `config/` node. -/
structure MultiFSState where
  rootChildren : List (String × WsNode)
  configChildren : List (String × String)
deriving DecidableEq, Repr

/-- `fetchTreeMap`: one tree per project, any failure aborting. -/
def fetchTreeMapGo (getTree : Project → Option Tree) :
    List Project → Option (List (String × Tree))
  | [] => some []
  | p :: ps =>
      match getTree p with
      | none => none
      | some t =>
          match fetchTreeMapGo getTree ps with
          | none => none
          | some rest => some ((p.Path, t) :: rest)

/-- `NewManifestFS`: marshal the manifest, require every revision to parse
as a Hash, and fetch all trees. -/
def newManifestFS (getTree : Project → Option Tree) (mf : Manifest) :
    Except Unit (List Nat × List (String × Tree)) :=
  let xml := marshalManifest mf
  if mf.Project.all (fun p => (parseID p.Revision).isSome) then
    match fetchTreeMapGo getTree mf.Project with
    | none => .error ()
    | some trees => .ok (xml, trees)
  else .error ()

/-- `configNode.Symlink`. -/
def configSymlink (hostFiles : List (String × List Nat)) (getTree : Project → Option Tree)
    (mountErr : Option String) (st : MultiFSState) (name content : String) :
    MultiFSState × Status :=
  match lookupBy hostFiles content with
  | none => (st, Status.readError)
  | some mfBytes =>
      match parseManifest mfBytes with
      | none => (st, Status.EINVAL)
      | some mf =>
          match newManifestFS getTree mf with
          | .error _ => (st, Status.EIO)
          | .ok (xml, trees) =>
              let link := goJoinList ["..", name, ".slothfs", "manifest.xml"]
              let node :=
                match mountErr with
                | none => WsNode.mounted xml trees
                | some msg => WsNode.errorFile msg
              ({ rootChildren := (name, node) :: st.rootChildren,
                 configChildren := (name, link) :: st.configChildren },
                Status.OK)

/-- The bytes served at `<name>/.slothfs/manifest.xml`, if the workspace
is mounted. -/
def wsManifestBytes (st : MultiFSState) (name : String) : Option (List Nat) :=
  match lookupBy st.rootChildren name with
  | some (WsNode.mounted xml _) => some xml
  | _ => none

/-- A path component that survives both the splitter and the cleaner. -/
def plainComp (c : List Char) : Prop :=
  goodComp c ∧ '/' ∉ c

instance (c : List Char) : Decidable (plainComp c) := by
  unfold plainComp; infer_instance

/-- Splitting a join of slash-free components gives them back. -/
theorem splitOnSlash_intercalate (comps : List (List Char)) (hne : comps ≠ [])
    (h : ∀ c ∈ comps, '/' ∉ c) :
    splitOnSlash (intercalateSlash comps) = comps := by
  induction comps with
  | nil => exact absurd rfl hne
  | cons c cs ih =>
      cases cs with
      | nil =>
          show splitOnSlash (intercalateSlash [c]) = [c]
          unfold intercalateSlash splitOnSlash
          exact splitOnSlashAux_noslash c (h c (List.mem_cons_self c [])) []
      | cons d ds =>
          rw [intercalateSlash_cons c (d :: ds) (by simp)]
          rw [splitOnSlash_append_slash]
          rw [ih (by simp) (fun x hx => h x (List.mem_cons_of_mem c hx))]
          unfold splitOnSlash
          rw [splitOnSlashAux_noslash c (h c (List.mem_cons_self c _)) []]
          rfl

/-- `path.Clean` fixes a relative path of plain components that starts
with a single `..`. -/
theorem goClean_dotdot (comps : List (List Char)) (hne : comps ≠ [])
    (h : ∀ c ∈ comps, plainComp c) (s : String)
    (hs : s.data = intercalateSlash (['.', '.'] :: comps)) :
    goClean s = s := by
  have hd : s.data = '.' :: '.' :: '/' :: intercalateSlash comps := by
    rw [hs, intercalateSlash_cons _ _ hne]
    rfl
  have hsplit : splitOnSlash ('.' :: '.' :: '/' :: intercalateSlash comps)
      = ['.', '.'] :: comps := by
    rw [show ('.' :: '.' :: '/' :: intercalateSlash comps : List Char)
        = intercalateSlash (['.', '.'] :: comps) from by
      rw [intercalateSlash_cons _ _ hne]
      rfl]
    refine splitOnSlash_intercalate _ (by simp) ?_
    intro c hc
    rcases List.mem_cons.mp hc with hh | hh
    · rw [hh]; simp
    · exact (h c hh).2
  have hstack : cleanStack false [] (['.', '.'] :: comps)
      = comps.reverse ++ [['.', '.']] := by
    rw [cleanStack.eq_def]
    simp only
    rw [if_pos trivial]
    rw [if_neg (by decide : ¬ ((false : Bool) = true))]
    exact cleanStack_good false comps (fun c hc => (h c hc).1) [['.', '.']]
  unfold goClean
  rw [if_neg (by
    intro hh
    rw [hh] at hd
    cases hd)]
  simp only [hd]
  rw [show (decide ((('.' :: '.' :: '/' :: intercalateSlash comps : List Char)).head?
      = some '/')) = false from rfl]
  rw [hsplit, hstack]
  rw [if_neg (by simp)]
  apply String.ext
  show (if (false : Bool) then ['/'] else [])
      ++ intercalateSlash (comps.reverse ++ [['.', '.']]).reverse = s.data
  rw [if_neg (by simp)]
  rw [hd]
  simp only [List.reverse_append, List.reverse_reverse, List.reverse_cons,
    List.reverse_nil, List.nil_append, List.cons_append]
  rw [intercalateSlash_cons _ _ hne]
  rfl

/-- `path.Clean` fixes a rooted path of plain components. -/
theorem goClean_rooted (comps : List (List Char)) (hne : comps ≠ [])
    (h : ∀ c ∈ comps, plainComp c) (s : String)
    (hs : s.data = '/' :: intercalateSlash comps) :
    goClean s = s := by
  have hsplit : splitOnSlash ('/' :: intercalateSlash comps) = [] :: comps := by
    rw [show ('/' :: intercalateSlash comps : List Char)
        = [] ++ '/' :: intercalateSlash comps from rfl]
    rw [splitOnSlash_append_slash]
    rw [splitOnSlash_intercalate comps hne (fun c hc => (h c hc).2)]
    rfl
  have hstack : cleanStack true [] ([] :: comps) = comps.reverse := by
    rw [cleanStack.eq_def]
    simp only
    rw [if_pos (Or.inl trivial)]
    rw [cleanStack_good true comps (fun c hc => (h c hc).1) []]
    rw [List.append_nil]
  unfold goClean
  rw [if_neg (by
    intro hh
    rw [hh] at hs
    cases hs)]
  simp only [hs]
  rw [show (decide ((('/' :: intercalateSlash comps : List Char)).head? = some '/'))
      = true from rfl]
  rw [hsplit, hstack]
  rw [if_neg (by
    rw [List.reverse_reverse]
    exact hne)]
  apply String.ext
  show (if (true : Bool) then ['/'] else []) ++ intercalateSlash comps.reverse.reverse
      = s.data
  rw [if_pos rfl, List.reverse_reverse, hs]
  rfl

/-- The config-symlink value for an ordinary workspace name. -/
theorem goJoinList_config_link (name : String) (hplain : plainComp name.data) :
    goJoinList ["..", name, ".slothfs", "manifest.xml"]
      = "../" ++ name ++ "/.slothfs/manifest.xml" := by
  unfold goJoinList
  rw [List.dropWhile_cons]
  rw [if_neg (by simp)]
  simp only [List.map_cons, List.map_nil]
  have hcomps : ("..".data : List Char) :: [name.data, ".slothfs".data, "manifest.xml".data]
      = ['.', '.'] :: [name.data, ".slothfs".data, "manifest.xml".data] := rfl
  rw [hcomps]
  rw [goClean_dotdot [name.data, ".slothfs".data, "manifest.xml".data] (by simp)
    (by
      intro c hc
      rcases List.mem_cons.mp hc with hh | hh
      · rw [hh]; exact hplain
      · rcases List.mem_cons.mp hh with hh2 | hh2
        · rw [hh2]; refine ⟨⟨by simp, by simp, by simp⟩, by simp⟩
        · rcases List.mem_cons.mp hh2 with hh3 | hh3
          · rw [hh3]; refine ⟨⟨by simp, by simp, by simp⟩, by simp⟩
          · cases hh3)
    ⟨intercalateSlash [['.', '.'], name.data, ".slothfs".data, "manifest.xml".data]⟩ rfl]
  apply String.ext
  show intercalateSlash (['.', '.'] :: [name.data, ".slothfs".data, "manifest.xml".data])
      = ("../" ++ name ++ "/.slothfs/manifest.xml").data
  rw [intercalateSlash_cons _ _ (by simp)]
  rw [intercalateSlash_cons _ _ (by simp)]
  rw [intercalateSlash_cons _ _ (by simp)]
  simp only [String.data_append]
  simp [intercalateSlash]


/-- C6: a create request `symlink(target, name)` on `config/` whose target
file does not parse as a Manifest returns EINVAL, and the mount root's
children are unchanged by the failed call — no workspace named `name` is
attached. -/
theorem configSymlink_parse_failure (hostFiles : List (String × List Nat))
    (getTree : Project → Option Tree) (mountErr : Option String)
    (st : MultiFSState) (name content : String) (bs : List Nat)
    (hread : lookupBy hostFiles content = some bs)
    (hparse : parseManifest bs = none) :
    configSymlink hostFiles getTree mountErr st name content = (st, Status.EINVAL) ∧
      (configSymlink hostFiles getTree mountErr st name content).1.rootChildren
        = st.rootChildren := by
  have hh : configSymlink hostFiles getTree mountErr st name content
      = (st, Status.EINVAL) := by
    unfold configSymlink
    simp only [hread, hparse]
  exact ⟨hh, by rw [hh]⟩

/-- Bytes of the file `"I am not XML"`, which is not a serialized
Manifest. -/
def c6bytes : List Nat := "I am not XML".data.map Char.toNat

/-- Witness for C6: creating workspace `"ws"` from the broken file fails
with EINVAL and attaches nothing. -/
theorem configSymlink_parse_failure_witness :
    configSymlink [("broken", c6bytes)] (fun _ => none) none ⟨[], []⟩ "ws" "broken"
        = (⟨[], []⟩, Status.EINVAL) ∧
      (configSymlink [("broken", c6bytes)] (fun _ => none) none ⟨[], []⟩ "ws"
          "broken").1.rootChildren = (⟨[], []⟩ : MultiFSState).rootChildren :=
  configSymlink_parse_failure [("broken", c6bytes)] (fun _ => none) none ⟨[], []⟩
    "ws" "broken" c6bytes (by decide) (by decide)

/-- C5: a successfully created workspace `name` has a config child whose
readlink value is exactly `"../<name>/.slothfs/manifest.xml"`, that path
designates the workspace's `.slothfs/manifest.xml` file holding the
marshalled manifest, and parsing it yields the same Manifest as parsing
the originally supplied file. -/
theorem configSymlink_success (hostFiles : List (String × List Nat))
    (getTree : Project → Option Tree) (st : MultiFSState) (name content : String)
    (bs : List Nat) (mf : Manifest) (xml : List Nat) (trees : List (String × Tree))
    (hplain : plainComp name.data)
    (hread : lookupBy hostFiles content = some bs)
    (hparse : parseManifest bs = some mf)
    (hnew : newManifestFS getTree mf = .ok (xml, trees)) :
    (configSymlink hostFiles getTree none st name content).2 = Status.OK ∧
      lookupBy (configSymlink hostFiles getTree none st name content).1.configChildren
          name = some ("../" ++ name ++ "/.slothfs/manifest.xml") ∧
      wsManifestBytes (configSymlink hostFiles getTree none st name content).1 name
        = some (marshalManifest mf) ∧
      parseManifest (marshalManifest mf) = parseManifest bs := by
  have hxml : xml = marshalManifest mf := by
    unfold newManifestFS at hnew
    by_cases hall : mf.Project.all (fun p => (parseID p.Revision).isSome)
    · simp only [if_pos hall] at hnew
      cases hfetch : fetchTreeMapGo getTree mf.Project with
      | none => simp only [hfetch] at hnew; cases hnew
      | some ts => simp only [hfetch] at hnew; cases hnew; rfl
    · simp only [if_neg hall] at hnew
      cases hnew
  have hrun : configSymlink hostFiles getTree none st name content
      = ({ rootChildren := (name, WsNode.mounted xml trees) :: st.rootChildren,
           configChildren :=
             (name, goJoinList ["..", name, ".slothfs", "manifest.xml"])
               :: st.configChildren },
          Status.OK) := by
    unfold configSymlink
    simp only [hread, hparse, hnew]
  refine ⟨by rw [hrun], ?_, ?_, ?_⟩
  · rw [hrun]
    show lookupBy ((name, goJoinList ["..", name, ".slothfs", "manifest.xml"])
        :: st.configChildren) name = _
    unfold lookupBy
    rw [if_pos rfl, goJoinList_config_link name hplain]
  · rw [hrun]
    unfold wsManifestBytes
    show (match lookupBy ((name, WsNode.mounted xml trees) :: st.rootChildren) name with
      | some (WsNode.mounted xml _) => some xml
      | _ => none) = _
    unfold lookupBy
    rw [if_pos rfl, hxml]
  · rw [parseManifest_marshal, hparse]

/-- The empty manifest and its serialized bytes. -/
def mf0 : Manifest := ⟨[]⟩

/-- Witness for C5: creating workspace `"ws"` from a file holding the
serialized empty manifest. -/
theorem configSymlink_success_witness :
    (configSymlink [("mf", marshalManifest mf0)] (fun _ => none) none ⟨[], []⟩
        "ws" "mf").2 = Status.OK ∧
      lookupBy (configSymlink [("mf", marshalManifest mf0)] (fun _ => none) none
          ⟨[], []⟩ "ws" "mf").1.configChildren "ws"
        = some ("../" ++ "ws" ++ "/.slothfs/manifest.xml") ∧
      wsManifestBytes (configSymlink [("mf", marshalManifest mf0)] (fun _ => none)
          none ⟨[], []⟩ "ws" "mf").1 "ws" = some (marshalManifest mf0) ∧
      parseManifest (marshalManifest mf0) = parseManifest (marshalManifest mf0) :=
  configSymlink_success [("mf", marshalManifest mf0)] (fun _ => none) ⟨[], []⟩
    "ws" "mf" (marshalManifest mf0) mf0 (marshalManifest mf0) [] (by decide)
    (by decide) (by decide) rfl


/-! ## The populate engine (`populate`: `src/unnamed/part_014`,
`src/populate/repotree.go`)

The populate engine works against two real directory trees: the read-only
SlothFS mount and a read-write checkout.  The embedding models the mount
as a finite map from workspace name to `RepoTree` content (reading
`<mnt>/<name>` succeeds exactly when `name` is mounted), and the R/W
directory by the list of symlinks it holds, as (relative path, absolute
target) pairs - the state the engine itself creates and consumes.  Real
directories materialised by `MkdirAll` are not tracked separately: a path
exists as a directory when a symlink at or above it leads into the
(existing, read-only) tree.  Go map iteration order is unspecified; the
model fixes it to the underlying list order, and lets the `foundRecurse`
test of `createTreeLinks` take precedence over the `foundCheckout` test,
one of the admissible Go orders. -/

/-- `repoTree` (`repotree.go`): a nested set of git repositories, with
child repositories, plain files, and Copyfile/Linkfile paths. -/
inductive RepoTree where
  | node (children : List (String × RepoTree))
      (entries : List (String × FileInfo)) (copied : List String)

/-- `repoTree.children`. -/
def RepoTree.children : RepoTree → List (String × RepoTree)
  | .node cs _ _ => cs

/-- `repoTree.entries`. -/
def RepoTree.entries : RepoTree → List (String × FileInfo)
  | .node _ es _ => es

/-- `repoTree.copied`. -/
def RepoTree.copied : RepoTree → List String
  | .node _ _ cp => cp

/-- `makeRepoTree()`: the empty tree. -/
def emptyRT : RepoTree := .node [] [] []

mutual

/-- `repoTree.allFiles`: all files below a node, keyed by joined path. -/
def allFiles : RepoTree → List (String × FileInfo)
  | .node cs es _ => es ++ allFilesL cs

/-- The children loop of `allFiles`. -/
def allFilesL : List (String × RepoTree) → List (String × FileInfo)
  | [] => []
  | (nm, ch) :: rest =>
      (allFiles ch).map (fun q => (goJoin nm q.1, q.2)) ++ allFilesL rest

end

mutual

/-- `repoTree.allChildren`: the node itself (key `""`) and all nested
repositories, keyed by joined relative path. -/
def allChildren : RepoTree → List (String × RepoTree)
  | .node cs es cp => ("", .node cs es cp) :: allChildrenL cs

/-- The children loop of `allChildren`. -/
def allChildrenL : List (String × RepoTree) → List (String × RepoTree)
  | [] => []
  | (nm, ch) :: rest =>
      (allChildren ch).map (fun q => (goJoin nm q.1, q.2)) ++ allChildrenL rest

end

/-- `filepath.Rel(nm, k)` stays below `nm` (no leading `".."`): for clean
relative paths this means `nm`'s components properly prefix `k`'s. -/
def isUnder (nm k : String) : Bool :=
  (nm.data ++ ['/']).isPrefixOf k.data

mutual

/-- `createTreeLinks`: for each child repository of the RO node, recurse
when the R/W tree has a checkout exactly there, create nothing when it has
one strictly below, and otherwise symlink the whole child; the created
links are returned, with paths relative to the R/W root. -/
def createTreeLinksM : RepoTree → RepoTree → String → String → List (String × String)
  | .node cs _ _, w, roRoot, rwRel => createTreeLinksL cs w roRoot rwRel

/-- The children loop of `createTreeLinks`. -/
def createTreeLinksL :
    List (String × RepoTree) → RepoTree → String → String → List (String × String)
  | [], _, _, _ => []
  | (nm, ch) :: rest, w, roRoot, rwRel =>
      (if ((allChildren w).map Prod.fst).any (fun k => k != "" && k == nm) then
        createTreeLinksM ch ((lookupBy w.children nm).getD emptyRT)
          (goJoin roRoot nm) (goJoin rwRel nm)
      else if ((allChildren w).map Prod.fst).any
          (fun k => k != "" && isUnder nm k) then
        []
      else
        [(goJoin rwRel nm, goJoin roRoot nm)])
      ++ createTreeLinksL rest w roRoot rwRel

end

/-- `os.Stat(filepath.Join(rwRoot, p))` finds a directory: some
already-created symlink at or above `p` leads into the RO tree. -/
def dirExistsVia (links : List (String × String)) (p : String) : Bool :=
  links.any (fun l => l.1 == p || (l.1.data ++ ['/']).isPrefixOf p.data)

/-- `symlinkRepo`: skip when the R/W directory already has `name`;
otherwise symlink every file of `child` individually. -/
def symlinkRepoM (name : String) (child : RepoTree) (roRoot : String)
    (links : List (String × String)) : List (String × String) :=
  if dirExistsVia links name then []
  else child.entries.map (fun e => (goJoin name e.1, goJoinList [roRoot, name, e.1]))

/-- `createLinks`: tree links first, then per-repository file links for
repositories the R/W tree does not know, then the Copyfile/Linkfile
paths. -/
def createLinksM (ro w : RepoTree) (roRoot : String) : List (String × String) :=
  createTreeLinksM ro w roRoot ""
    ++ ((allChildren ro).filter
          (fun p => !(((allChildren w).map Prod.fst).contains p.1))).foldl
        (fun acc p => acc ++ symlinkRepoM p.1 p.2 roRoot
          (createTreeLinksM ro w roRoot "" ++ acc)) []
    ++ ro.copied.map (fun c => (c, goJoin roRoot c))

/-- `trimMount`: strip `mount+"/"` and keep the first path component. -/
def trimMount (dir mount : String) : String :=
  ⟨(if (mount.data ++ ['/']).isPrefixOf dir.data
    then dir.data.drop (mount.data.length + 1)
    else dir.data).takeWhile (fun c => c ≠ '/')⟩

/-- `clearLinks`: remove every symlink whose target lies in the mount,
returning the workspace names they pointed into and the surviving
links. -/
def clearLinksM (mount : String) (links : List (String × String)) :
    List String × List (String × String) :=
  ((links.filter (fun l => (goClean mount).data.isPrefixOf l.2.data)).map
      (fun l => trimMount l.2 (goClean mount)),
    links.filter (fun l => !((goClean mount).data.isPrefixOf l.2.data)))

/-- The `oldRoot` scan of `Checkout`: the first previously-linked name
that still exists under the mount and is not the new RO root itself. -/
def findOldWs (ws : List (String × RepoTree)) (mnt ro : String)
    (names : List String) : Option String :=
  names.find? (fun nm => (lookupBy ws nm).isSome && (goJoin mnt nm != ro))

/-- `repoTreeFromSlothFS` on the old root, feeding `allFiles`; no old
root means no old file infos. -/
def oldInfosOf (ws : List (String × RepoTree)) :
    Option String → List (String × FileInfo)
  | none => []
  | some nm =>
      match lookupBy ws nm with
      | some t => allFiles t
      | none => []

/-- `newRepoTree` on the cleared R/W directory: the surviving symlinks,
seen as plain files with unknown SHA1. -/
def rwTreeOf (links : List (String × String)) : RepoTree :=
  .node [] (links.map (fun l => (l.1, ⟨none⟩))) []

/-- `Checkout(ro, rw)`: clear the old forest, locate a previous workspace
root, traverse old, new and R/W trees, create the new forest, and return
the ADDED and CHANGED paths joined under the new RO root, here together
with the new forest. -/
def checkout (ws : List (String × RepoTree)) (ro0 : String)
    (links : List (String × String)) :
    Option (List String × List String × List (String × String)) :=
  match lookupBy ws (goBase (goClean ro0)) with
  | none => none
  | some roTree =>
      some
        ((changedFiles
            (oldInfosOf ws (findOldWs ws (goDir (goClean ro0)) (goClean ro0)
              (clearLinksM (goDir (goClean ro0)) links).1))
            (allFiles roTree)).1.map (fun p => goJoin (goClean ro0) p),
          (changedFiles
            (oldInfosOf ws (findOldWs ws (goDir (goClean ro0)) (goClean ro0)
              (clearLinksM (goDir (goClean ro0)) links).1))
            (allFiles roTree)).2.map (fun p => goJoin (goClean ro0) p),
          createLinksM roTree
            (rwTreeOf (clearLinksM (goDir (goClean ro0)) links).2) (goClean ro0))


/-! ## Path lemmas for the populate engine -/

/-- A nonempty relative path of ordinary components. -/
def relPath (s : String) : Prop :=
  ∃ comps, comps ≠ [] ∧ (∀ c ∈ comps, plainComp c) ∧ s.data = intercalateSlash comps

/-- A join of plain components starts with an ordinary character. -/
theorem intercalateSlash_head (comps : List (List Char)) (hne : comps ≠ [])
    (h : ∀ c ∈ comps, plainComp c) :
    ∃ x xs, intercalateSlash comps = x :: xs ∧ x ≠ '/' := by
  cases comps with
  | nil => exact absurd rfl hne
  | cons c rest =>
      obtain ⟨⟨hc1, _, _⟩, hc4⟩ := h c (List.mem_cons_self c rest)
      cases hcc : c with
      | nil => exact absurd hcc hc1
      | cons x cx =>
          subst hcc
          have hxs : x ≠ '/' := by
            intro he
            exact hc4 (by rw [he]; exact List.mem_cons_self _ _)
          cases rest with
          | nil => exact ⟨x, cx, rfl, hxs⟩
          | cons d ds =>
              refine ⟨x, cx ++ '/' :: intercalateSlash (d :: ds), ?_, hxs⟩
              rw [intercalateSlash_cons (x :: cx) (d :: ds) (by simp)]
              rfl

/-- A relative path of plain components is nonempty. -/
theorem relPath_ne_empty (s : String) (h : relPath s) : s ≠ "" := by
  obtain ⟨comps, hne, hpl, hs⟩ := h
  obtain ⟨x, xs, hx, _⟩ := intercalateSlash_head comps hne hpl
  intro he
  rw [he, hx] at hs
  cases hs

/-- `intercalateSlash` over an append of nonempty chunk lists, directly. -/
theorem intercalateSlash_append_ne (a b : List (List Char)) (ha : a ≠ [])
    (hb : b ≠ []) :
    intercalateSlash (a ++ b) = intercalateSlash a ++ '/' :: intercalateSlash b := by
  cases a with
  | nil => exact absurd rfl ha
  | cons x xs => exact intercalateSlash_append (x :: xs) b hb

/-- Cleaning consumes a block of good components, leaving the rest. -/
theorem cleanStack_append_good (rooted : Bool) (comps : List (List Char))
    (h : ∀ c ∈ comps, goodComp c) :
    ∀ stack more, cleanStack rooted stack (comps ++ more)
      = cleanStack rooted (comps.reverse ++ stack) more := by
  induction comps with
  | nil => intro stack more; simp
  | cons c cs ih =>
      intro stack more
      obtain ⟨h1, h2, h3⟩ := h c (List.mem_cons_self c cs)
      rw [List.cons_append, cleanStack.eq_def]
      simp only
      rw [if_neg (by simp [h1, h2]), if_neg h3]
      rw [ih (fun x hx => h x (List.mem_cons_of_mem c hx)) (c :: stack) more]
      simp

/-- `path.Clean` fixes a relative path of plain components. -/
theorem goClean_rel (comps : List (List Char)) (hne : comps ≠ [])
    (h : ∀ c ∈ comps, plainComp c) (s : String)
    (hs : s.data = intercalateSlash comps) :
    goClean s = s := by
  obtain ⟨x, xs, hx, hxne⟩ := intercalateSlash_head comps hne h
  have hd : s.data = x :: xs := by rw [hs, hx]
  have hsplit : splitOnSlash (x :: xs) = comps := by
    rw [← hd, hs]
    exact splitOnSlash_intercalate comps hne (fun c hc => (h c hc).2)
  unfold goClean
  rw [if_neg (by intro hh; rw [hh] at hd; cases hd)]
  simp only [hd]
  rw [show (decide (((x :: xs : List Char)).head? = some '/')) = false from
    decide_eq_false (by simp [hxne])]
  rw [hsplit]
  rw [cleanStack_good false comps (fun c hc => (h c hc).1) []]
  rw [List.append_nil]
  rw [if_neg (by simp [hne])]
  apply String.ext
  show (if ((x :: xs : List Char).head? = some '/') then ['/'] else [])
      ++ intercalateSlash comps.reverse.reverse = s.data
  rw [if_neg (by simp [hxne]), List.reverse_reverse, hs]
  rfl

/-- `path.Clean` drops a single trailing slash after plain components. -/
theorem goClean_trailing (comps : List (List Char)) (hne : comps ≠ [])
    (h : ∀ c ∈ comps, plainComp c) (s : String)
    (hs : s.data = intercalateSlash comps ++ ['/']) :
    goClean s = ⟨intercalateSlash comps⟩ := by
  obtain ⟨x, xs, hx, hxne⟩ := intercalateSlash_head comps hne h
  have hd : s.data = x :: (xs ++ ['/']) := by rw [hs, hx]; rfl
  have hsplit : splitOnSlash (x :: (xs ++ ['/'])) = comps ++ [[]] := by
    rw [← hd, hs]
    rw [show (intercalateSlash comps ++ ['/'] : List Char)
        = intercalateSlash comps ++ '/' :: [] from rfl]
    rw [splitOnSlash_append_slash]
    rw [splitOnSlash_intercalate comps hne (fun c hc => (h c hc).2)]
    rfl
  unfold goClean
  rw [if_neg (by intro hh; rw [hh] at hd; cases hd)]
  simp only [hd]
  rw [show (decide (((x :: (xs ++ ['/']) : List Char)).head? = some '/')) = false from
    decide_eq_false (by simp [hxne])]
  rw [hsplit]
  rw [cleanStack_append_good false comps (fun c hc => (h c hc).1) [] [[]]]
  rw [List.append_nil]
  rw [show cleanStack false comps.reverse [[]] = comps.reverse from by
    rw [cleanStack.eq_def]
    simp only
    rw [if_pos (Or.inl trivial)]
    rfl]
  rw [if_neg (by simp [hne])]
  apply String.ext
  show (if ((x :: (xs ++ ['/']) : List Char).head? = some '/') then ['/'] else [])
      ++ intercalateSlash comps.reverse.reverse = intercalateSlash comps
  rw [if_neg (by simp [hxne]), List.reverse_reverse]
  rfl

/-- `filepath.Join("", nm)` is `Clean(nm)`, which fixes a relative path. -/
theorem goJoin_empty_left (nm : String) (h : relPath nm) : goJoin "" nm = nm := by
  obtain ⟨comps, hne, hpl, hs⟩ := h
  have hnm : nm ≠ "" := relPath_ne_empty nm ⟨comps, hne, hpl, hs⟩
  unfold goJoin goJoinList
  have hdw : (["", nm].dropWhile (fun e => e = "")) = [nm] := by
    rw [List.dropWhile_cons, if_pos (by simp), List.dropWhile_cons,
      if_neg (by simp [hnm])]
  simp only [hdw]
  show goClean ⟨intercalateSlash [nm.data]⟩ = nm
  exact goClean_rel comps hne hpl nm hs

/-- `filepath.Join(nm, "")` cleans away the trailing slash. -/
theorem goJoin_empty_right (nm : String) (h : relPath nm) : goJoin nm "" = nm := by
  obtain ⟨comps, hne, hpl, hs⟩ := h
  have hnm : nm ≠ "" := relPath_ne_empty nm ⟨comps, hne, hpl, hs⟩
  unfold goJoin goJoinList
  have hdw : ([nm, ""].dropWhile (fun e => e = "")) = [nm, ""] := by
    rw [List.dropWhile_cons, if_neg (by simp [hnm])]
  simp only [hdw]
  show goClean ⟨intercalateSlash [nm.data, []]⟩ = nm
  rw [show intercalateSlash [nm.data, []] = nm.data ++ ['/'] from by
    rw [intercalateSlash_cons nm.data [[]] (by simp)]
    rfl]
  rw [goClean_trailing comps hne hpl ⟨nm.data ++ ['/']⟩ (by
    show nm.data ++ ['/'] = intercalateSlash comps ++ ['/']
    rw [hs])]
  apply String.ext
  show intercalateSlash comps = nm.data
  rw [hs]

/-- The data of a link target created under `/x/ws1`. -/
theorem target_shape_ws1 (nm : String) (h : relPath nm) :
    (goJoin "/x/ws1" nm).data
      = '/' :: 'x' :: '/' :: 'w' :: 's' :: '1' :: '/' :: nm.data := by
  obtain ⟨comps, hne, hpl, hs⟩ := h
  unfold goJoin goJoinList
  have hdw : (["/x/ws1", nm].dropWhile (fun e => e = "")) = ["/x/ws1", nm] := by
    rw [List.dropWhile_cons, if_neg (by simp)]
  simp only [hdw]
  show (goClean ⟨intercalateSlash ["/x/ws1".data, nm.data]⟩).data = _
  have hint : intercalateSlash ["/x/ws1".data, nm.data]
      = '/' :: intercalateSlash (['x'] :: ['w', 's', '1'] :: comps) := by
    rw [intercalateSlash_cons _ [nm.data] (by simp)]
    rw [show (['x'] :: ['w', 's', '1'] :: comps : List (List Char))
        = [['x'], ['w', 's', '1']] ++ comps from rfl]
    rw [intercalateSlash_append_ne [['x'], ['w', 's', '1']] comps (by simp) hne]
    rw [hs]
    rfl
  rw [hint]
  rw [goClean_rooted (['x'] :: ['w', 's', '1'] :: comps) (by simp)
    (by
      intro c hc
      rcases List.mem_cons.mp hc with hh | hh
      · rw [hh]; exact ⟨⟨by simp, by simp, by simp⟩, by simp⟩
      · rcases List.mem_cons.mp hh with hh2 | hh2
        · rw [hh2]; exact ⟨⟨by simp, by simp, by simp⟩, by simp⟩
        · exact hpl c hh2)
    ⟨'/' :: intercalateSlash (['x'] :: ['w', 's', '1'] :: comps)⟩ rfl]
  show '/' :: intercalateSlash (['x'] :: ['w', 's', '1'] :: comps) = _
  rw [show (['x'] :: ['w', 's', '1'] :: comps : List (List Char))
      = [['x'], ['w', 's', '1']] ++ comps from rfl]
  rw [intercalateSlash_append_ne [['x'], ['w', 's', '1']] comps (by simp) hne]
  rw [hs]
  rfl

/-- Every link target created under `/x/ws1` lies under the mount `/x`. -/
theorem target_under_mnt (nm : String) (h : relPath nm) :
    ("/x".data).isPrefixOf (goJoin "/x/ws1" nm).data = true := by
  rw [target_shape_ws1 nm h]
  rfl

/-- `trimMount` maps every link target created under `/x/ws1` back to the
workspace name `ws1`. -/
theorem target_trim (nm : String) (h : relPath nm) :
    trimMount (goJoin "/x/ws1" nm) "/x" = "ws1" := by
  unfold trimMount
  rw [target_shape_ws1 nm h]
  rfl


/-- Against an empty R/W tree, `createTreeLinks` symlinks every child of
the RO root. -/
theorem createTreeLinksL_emptyRw (ro : String) :
    ∀ cs : List (String × RepoTree), (∀ p ∈ cs, relPath p.1) →
      createTreeLinksL cs emptyRT ro ""
        = cs.map (fun p => (p.1, goJoin ro p.1)) := by
  intro cs
  induction cs with
  | nil => intro _; rfl
  | cons p rest ih =>
      intro hcomp
      obtain ⟨nm, ch⟩ := p
      show ([(goJoin "" nm, goJoin ro nm)]
          ++ createTreeLinksL rest emptyRT ro "") = _
      rw [goJoin_empty_left nm (hcomp (nm, ch) (List.mem_cons_self _ _))]
      rw [ih (fun q hq => hcomp q (List.mem_cons_of_mem _ hq))]
      rfl

/-- For a one-level tree, `allChildren` lists the root and the direct
children unchanged. -/
theorem allChildrenL_depth1 :
    ∀ cs : List (String × RepoTree),
      (∀ p ∈ cs, (p.2 : RepoTree).children = []) → (∀ p ∈ cs, relPath p.1) →
      allChildrenL cs = cs := by
  intro cs
  induction cs with
  | nil => intro _ _; rfl
  | cons p rest ih =>
      intro hdepth hcomp
      obtain ⟨nm, ch⟩ := p
      have hcd : ch.children = [] := hdepth (nm, ch) (List.mem_cons_self _ _)
      cases ch with
      | node cs2 es2 cp2 =>
          have hcs2 : cs2 = [] := hcd
          subst hcs2
          show (allChildren (.node [] es2 cp2)).map
              (fun q => (goJoin nm q.1, q.2)) ++ allChildrenL rest = _
          rw [show allChildren (.node [] es2 cp2)
              = [("", RepoTree.node [] es2 cp2)] from rfl]
          rw [List.map_cons, List.map_nil]
          rw [goJoin_empty_right nm (hcomp (nm, .node [] es2 cp2)
            (List.mem_cons_self _ _))]
          rw [ih (fun q hq => hdepth q (List.mem_cons_of_mem _ hq))
            (fun q hq => hcomp q (List.mem_cons_of_mem _ hq))]
          rfl

/-- The `symlinkRepo` loop of `createLinks` creates nothing when every
repository is already covered by a tree link. -/
theorem foldl_symlink_nil (ro : String) (tl : List (String × String)) :
    ∀ cs : List (String × RepoTree), (∀ p ∈ cs, dirExistsVia tl p.1 = true) →
      cs.foldl (fun acc p => acc ++ symlinkRepoM p.1 p.2 ro (tl ++ acc)) []
        = [] := by
  intro cs
  induction cs with
  | nil => intro _; rfl
  | cons p rest ih =>
      intro hcov
      simp only [List.foldl_cons, List.nil_append]
      have hsym : symlinkRepoM p.1 p.2 ro (tl ++ []) = [] := by
        unfold symlinkRepoM
        rw [List.append_nil, hcov p (List.mem_cons_self _ _)]
        rw [if_pos rfl]
      rw [hsym]
      exact ih (fun q hq => hcov q (List.mem_cons_of_mem _ hq))

/-- A created tree link covers its own repository name. -/
theorem dirExistsVia_self (nm : String) (v : String)
    (tl : List (String × String)) (hmem : (nm, v) ∈ tl) :
    dirExistsVia tl nm = true := by
  unfold dirExistsVia
  rw [List.any_eq_true]
  exact ⟨(nm, v), hmem, by simp⟩

/-- Against an empty R/W tree, `createLinks` on a one-level RO tree
creates exactly one top-level link per child repository plus one link per
copied file. -/
theorem createLinksM_emptyRw (T : RepoTree) (ro : String)
    (hdepth : ∀ p ∈ T.children, (p.2 : RepoTree).children = [])
    (hcomp : ∀ p ∈ T.children, relPath p.1) :
    createLinksM T emptyRT ro
      = T.children.map (fun p => (p.1, goJoin ro p.1))
        ++ T.copied.map (fun c => (c, goJoin ro c)) := by
  cases T with
  | node cs es cp =>
      have hcs : RepoTree.children (.node cs es cp) = cs := rfl
      rw [hcs] at hdepth hcomp
      unfold createLinksM
      have htl : createTreeLinksM (.node cs es cp) emptyRT ro ""
          = cs.map (fun p => (p.1, goJoin ro p.1)) := by
        show createTreeLinksL cs emptyRT ro "" = _
        exact createTreeLinksL_emptyRw ro cs hcomp
      rw [htl]
      have hac : allChildren (.node cs es cp)
          = ("", RepoTree.node cs es cp) :: cs := by
        show ("", RepoTree.node cs es cp) :: allChildrenL cs = _
        rw [allChildrenL_depth1 cs hdepth hcomp]
      rw [hac]
      have hflt : ((("", RepoTree.node cs es cp) :: cs).filter
          (fun p => !(((allChildren emptyRT).map Prod.fst).contains p.1))) = cs := by
        rw [List.filter_cons]
        rw [show (!(((allChildren emptyRT).map Prod.fst).contains
            (("", RepoTree.node cs es cp) : String × RepoTree).1)) = false from rfl]
        rw [if_neg (by decide : ¬ ((false : Bool) = true))]
        refine List.filter_eq_self.mpr ?_
        intro p hp
        have hno : p.1 ≠ "" := relPath_ne_empty p.1 (hcomp p hp)
        show (!(((allChildren emptyRT).map Prod.fst).contains p.1)) = true
        rw [show ((allChildren emptyRT).map Prod.fst) = [""] from rfl]
        simp [hno]
      rw [hflt]
      rw [foldl_symlink_nil ro (cs.map (fun p => (p.1, goJoin ro p.1))) cs ?_]
      · simp [RepoTree.children, RepoTree.copied]
      · intro p hp
        exact dirExistsVia_self p.1 (goJoin ro p.1) _
          (List.mem_map.mpr ⟨p, hp, rfl⟩)

/-- `changedFiles` of a well-formed map against itself is empty. -/
theorem changedFiles_self (m : List (String × FileInfo))
    (hn : (m.map Prod.fst).Nodup) (hs : ∀ x ∈ m, x.2.sha1 ≠ none) :
    changedFiles m m = ([], []) := by
  have hlook : ∀ x ∈ m, lookupBy m x.1 = some x.2 := by
    intro x hx
    exact lookupBy_eq_of_mem_nodup m hn x.1 x.2 (by simpa using hx)
  have hadd : m.filter (addedP m) = [] := by
    rw [List.filter_eq_nil_iff]
    intro x hx
    simp [addedP, hlook x hx]
  have hchg : m.filter (changedP m) = [] := by
    rw [List.filter_eq_nil_iff]
    intro x hx
    simp only [changedP, hlook x hx]
    rw [if_neg (by
      rcases Option.ne_none_iff_exists'.mp (hs x hx) with ⟨v, hv⟩
      simp [hv])]
    simp
  unfold changedFiles
  rw [changedFilesRaw_eq, hadd, hchg]
  simp only [List.map_nil]
  rw [List.mergeSort_nil]

/-- `find?` on a constant list whose value passes the test. -/
theorem find?_all_eq {α : Type} (l : List α) (a : α) (p : α → Bool)
    (hall : ∀ y ∈ l, y = a) (hne : l ≠ []) (hp : p a = true) :
    l.find? p = some a := by
  cases l with
  | nil => exact absurd rfl hne
  | cons x xs =>
      have hx : x = a := hall x (List.mem_cons_self _ _)
      subst hx
      exact List.find?_cons_of_pos xs hp


/-- A first `Checkout` against `/x/ws1` from an empty R/W directory:
everything in the diff is joined under the RO root, and the new forest
links every child repository and copied file. -/
theorem checkout_first_run (T : RepoTree)
    (hdepth : ∀ p ∈ T.children, (p.2 : RepoTree).children = [])
    (hcomp : ∀ p ∈ T.children, relPath p.1) :
    checkout [("ws1", T), ("ws2", T)] "/x/ws1" []
      = some ((changedFiles [] (allFiles T)).1.map (fun p => goJoin "/x/ws1" p),
          (changedFiles [] (allFiles T)).2.map (fun p => goJoin "/x/ws1" p),
          T.children.map (fun p => (p.1, goJoin "/x/ws1" p.1))
            ++ T.copied.map (fun c => (c, goJoin "/x/ws1" c))) := by
  have hlook : lookupBy [("ws1", T), ("ws2", T)] (goBase (goClean "/x/ws1"))
      = some T := by
    rw [show goBase (goClean "/x/ws1") = "ws1" from rfl]
    unfold lookupBy
    rw [if_pos rfl]
  unfold checkout
  simp only [hlook]
  rw [show oldInfosOf [("ws1", T), ("ws2", T)]
      (findOldWs [("ws1", T), ("ws2", T)] (goDir (goClean "/x/ws1"))
        (goClean "/x/ws1") (clearLinksM (goDir (goClean "/x/ws1")) []).1)
      = ([] : List (String × FileInfo)) from rfl]
  rw [show rwTreeOf (clearLinksM (goDir (goClean "/x/ws1")) []).2 = emptyRT
    from rfl]
  rw [createLinksM_emptyRw T (goClean "/x/ws1") hdepth hcomp]
  rfl

/-- C2 (amended): `Checkout` against a fresh RO path for a workspace with
the same content as the previous one - the `repo sync; slothfs-populate`
pattern the engine is written for - reports empty ADDED and CHANGED on the
second run.  Hypotheses: the two RO paths `/x/ws1` and `/x/ws2` are
distinct workspaces of the mount `/x` serving the same tree `T`; `T`
mounts its repositories at one-level relative paths and has at least one
of them; its file map has duplicate-free keys and known SHA1s. -/
theorem checkout_twice_amended (T : RepoTree)
    (hdepth : ∀ p ∈ T.children, (p.2 : RepoTree).children = [])
    (hcomp : ∀ p ∈ T.children, relPath p.1)
    (hcop : ∀ c ∈ T.copied, relPath c)
    (hchild : T.children ≠ [])
    (hnodup : ((allFiles T).map Prod.fst).Nodup)
    (hsha : ∀ x ∈ allFiles T, x.2.sha1 ≠ none)
    (a1 c1 : List String) (l1 : List (String × String))
    (h1 : checkout [("ws1", T), ("ws2", T)] "/x/ws1" [] = some (a1, c1, l1)) :
    ∃ l2, checkout [("ws1", T), ("ws2", T)] "/x/ws2" l1 = some ([], [], l2) := by
  rw [checkout_first_run T hdepth hcomp] at h1
  have hl1 : l1 = T.children.map (fun p => (p.1, goJoin "/x/ws1" p.1))
      ++ T.copied.map (fun c => (c, goJoin "/x/ws1" c)) :=
    (congrArg (fun r => r.2.2) (Option.some.inj h1)).symm
  subst hl1
  refine ⟨createLinksM T emptyRT (goClean "/x/ws2"), ?_⟩
  have hmem : ∀ l ∈ (T.children.map (fun p => (p.1, goJoin "/x/ws1" p.1))
      ++ T.copied.map (fun c => (c, goJoin "/x/ws1" c))),
      ∃ s, relPath s ∧ (l.2 : String) = goJoin "/x/ws1" s := by
    intro l hl
    rcases List.mem_append.mp hl with hh | hh
    · rcases List.mem_map.mp hh with ⟨p, hp, hpe⟩
      exact ⟨p.1, hcomp p hp, by rw [← hpe]⟩
    · rcases List.mem_map.mp hh with ⟨c, hc, hce⟩
      exact ⟨c, hcop c hc, by rw [← hce]⟩
  have hclear : clearLinksM (goDir (goClean "/x/ws2"))
      (T.children.map (fun p => (p.1, goJoin "/x/ws1" p.1))
        ++ T.copied.map (fun c => (c, goJoin "/x/ws1" c)))
      = ((T.children.map (fun p => (p.1, goJoin "/x/ws1" p.1))
          ++ T.copied.map (fun c => (c, goJoin "/x/ws1" c))).map
            (fun l => trimMount l.2 (goClean (goDir (goClean "/x/ws2")))),
          []) := by
    unfold clearLinksM
    rw [List.filter_eq_self.mpr ?_]
    · rw [show (T.children.map (fun p => (p.1, goJoin "/x/ws1" p.1))
          ++ T.copied.map (fun c => (c, goJoin "/x/ws1" c))).filter
            (fun l => !((goClean (goDir (goClean "/x/ws2"))).data.isPrefixOf
              l.2.data)) = [] from List.filter_eq_nil_iff.mpr ?_]
      intro l hl
      obtain ⟨t, htrel, hte⟩ := hmem l hl
      rw [show goClean (goDir (goClean "/x/ws2")) = "/x" from rfl, hte,
        target_under_mnt t htrel]
      simp
    · intro l hl
      obtain ⟨t, htrel, hte⟩ := hmem l hl
      rw [show goClean (goDir (goClean "/x/ws2")) = "/x" from rfl, hte]
      exact target_under_mnt t htrel
  have hnames : ∀ y ∈ (T.children.map (fun p => (p.1, goJoin "/x/ws1" p.1))
      ++ T.copied.map (fun c => (c, goJoin "/x/ws1" c))).map
        (fun l => trimMount l.2 (goClean (goDir (goClean "/x/ws2")))),
      y = "ws1" := by
    intro y hy
    rcases List.mem_map.mp hy with ⟨l, hl, hle⟩
    obtain ⟨t, htrel, hte⟩ := hmem l hl
    rw [← hle, hte, show goClean (goDir (goClean "/x/ws2")) = "/x" from rfl]
    exact target_trim t htrel
  have hnnil : (T.children.map (fun p => (p.1, goJoin "/x/ws1" p.1))
      ++ T.copied.map (fun c => (c, goJoin "/x/ws1" c))).map
        (fun l => trimMount l.2 (goClean (goDir (goClean "/x/ws2")))) ≠ [] := by
    intro h0
    rcases List.append_eq_nil.mp (List.map_eq_nil_iff.mp h0) with ⟨hcl, _⟩
    exact hchild (List.map_eq_nil_iff.mp hcl)
  have hlookws1 : lookupBy [("ws1", T), ("ws2", T)] "ws1" = some T := by
    unfold lookupBy
    rw [if_pos rfl]
  have hfind : findOldWs [("ws1", T), ("ws2", T)] (goDir (goClean "/x/ws2"))
      (goClean "/x/ws2")
      ((T.children.map (fun p => (p.1, goJoin "/x/ws1" p.1))
        ++ T.copied.map (fun c => (c, goJoin "/x/ws1" c))).map
          (fun l => trimMount l.2 (goClean (goDir (goClean "/x/ws2")))))
      = some "ws1" := by
    unfold findOldWs
    refine find?_all_eq _ "ws1" _ hnames hnnil ?_
    rw [hlookws1]
    rfl
  have hold : oldInfosOf [("ws1", T), ("ws2", T)] (some "ws1") = allFiles T := by
    show (match lookupBy [("ws1", T), ("ws2", T)] "ws1" with
      | some t => allFiles t
      | none => []) = allFiles T
    rw [hlookws1]
  have hlook2 : lookupBy [("ws1", T), ("ws2", T)] (goBase (goClean "/x/ws2"))
      = some T := by
    rw [show goBase (goClean "/x/ws2") = "ws2" from rfl]
    unfold lookupBy
    rw [if_neg (by decide)]
    unfold lookupBy
    rw [if_pos rfl]
  unfold checkout
  simp only [hlook2]
  rw [hclear]
  rw [show (((T.children.map (fun p => (p.1, goJoin "/x/ws1" p.1))
      ++ T.copied.map (fun c => (c, goJoin "/x/ws1" c))).map
        (fun l => trimMount l.2 (goClean (goDir (goClean "/x/ws2")))),
      ([] : List (String × String))) :
        List String × List (String × String)).1
    = (T.children.map (fun p => (p.1, goJoin "/x/ws1" p.1))
        ++ T.copied.map (fun c => (c, goJoin "/x/ws1" c))).map
          (fun l => trimMount l.2 (goClean (goDir (goClean "/x/ws2")))) from rfl]
  rw [hfind, hold]
  rw [changedFiles_self (allFiles T) hnodup hsha]
  rfl

/-- The concrete workspace tree of the C2 scenarios: one repository
`proj` holding one file `f`. -/
def c2tree : RepoTree :=
  .node [("proj", .node [] [("f", ⟨some hash2⟩)] [])] [] []

/-- C2 (counterexample): running `Checkout` twice against the SAME RO path
with nothing changed in between does not yield empty lists: the second run
reports the whole tree as ADDED again, because the oldRoot scan skips the
candidate equal to the current RO (`r != ro` in `Checkout`), leaving no
old file infos to diff against. -/
theorem checkout_rerun_same_ro :
    checkout [("ws1", c2tree)] "/x/ws1" []
      = some (["/x/ws1/proj/f"], [], [("proj", "/x/ws1/proj")]) ∧
    checkout [("ws1", c2tree)] "/x/ws1" [("proj", "/x/ws1/proj")]
      = some (["/x/ws1/proj/f"], [], [("proj", "/x/ws1/proj")]) := by
  have hraw : changedFiles [] (allFiles c2tree) = (["proj/f"], []) := by
    show ((changedFilesRaw [] (allFiles c2tree)).1.mergeSort strLe,
        (changedFilesRaw [] (allFiles c2tree)).2.mergeSort strLe) = _
    rw [show changedFilesRaw [] (allFiles c2tree) = (["proj/f"], []) from rfl]
    show (["proj/f"].mergeSort strLe, ([] : List String).mergeSort strLe) = _
    rw [List.mergeSort_singleton, List.mergeSort_nil]
  constructor
  · show some ((changedFiles [] (allFiles c2tree)).1.map
        (fun p => goJoin (goClean "/x/ws1") p),
        (changedFiles [] (allFiles c2tree)).2.map
          (fun p => goJoin (goClean "/x/ws1") p),
        [("proj", "/x/ws1/proj")]) = _
    rw [hraw]
    rfl
  · show some ((changedFiles [] (allFiles c2tree)).1.map
        (fun p => goJoin (goClean "/x/ws1") p),
        (changedFiles [] (allFiles c2tree)).2.map
          (fun p => goJoin (goClean "/x/ws1") p),
        [("proj", "/x/ws1/proj")]) = _
    rw [hraw]
    rfl

/-- The first run of the witness scenario, against `/x/ws1`. -/
theorem c2run1 :
    checkout [("ws1", c2tree), ("ws2", c2tree)] "/x/ws1" []
      = some (["/x/ws1/proj/f"], [], [("proj", "/x/ws1/proj")]) := by
  have hraw : changedFiles [] (allFiles c2tree) = (["proj/f"], []) := by
    show ((changedFilesRaw [] (allFiles c2tree)).1.mergeSort strLe,
        (changedFilesRaw [] (allFiles c2tree)).2.mergeSort strLe) = _
    rw [show changedFilesRaw [] (allFiles c2tree) = (["proj/f"], []) from rfl]
    show (["proj/f"].mergeSort strLe, ([] : List String).mergeSort strLe) = _
    rw [List.mergeSort_singleton, List.mergeSort_nil]
  show some ((changedFiles [] (allFiles c2tree)).1.map
      (fun p => goJoin (goClean "/x/ws1") p),
      (changedFiles [] (allFiles c2tree)).2.map
        (fun p => goJoin (goClean "/x/ws1") p),
      [("proj", "/x/ws1/proj")]) = _
  rw [hraw]
  rfl

/-- Witness for the amended C2 at the concrete tree `c2tree`. -/
theorem checkout_twice_amended_witness :
    ∃ l2, checkout [("ws1", c2tree), ("ws2", c2tree)] "/x/ws2"
        [("proj", "/x/ws1/proj")] = some ([], [], l2) :=
  checkout_twice_amended c2tree
    (by
      intro p hp
      rw [List.mem_singleton.mp hp]
      rfl)
    (by
      intro p hp
      rw [List.mem_singleton.mp hp]
      exact ⟨[['p', 'r', 'o', 'j']], by decide, by decide, rfl⟩)
    (by
      intro c hc
      exact absurd hc (List.not_mem_nil c))
    (List.cons_ne_nil _ _)
    (by decide)
    (by decide)
    ["/x/ws1/proj/f"] [] [("proj", "/x/ws1/proj")]
    c2run1

end Slothfs
